import Mathlib

/-!
# PIHM 2.1 driver (`pihm.c`): the time-stepping controller of `main`

A shallow embedding of the parts of `main` in `src/PIHM_v2.1/pihm.c` that the
specification talks about:

* the sub-step selection of the inner `while` loop (lines 219-232),
* the outer `for` loop over the reporting boundaries (lines 209-234),
* the solver set-up and the return value of `main` (lines 191-240),
* the problem size `N` (lines 177-183),
* the heap buffers holding file names (lines 115-164).

A `realtype` value is modelled by the rational number it holds. The two
`realtype` operations of the loop, `t + cData.ETStep` and `NextPtr - t`, are
parameters of the model (`Arith`), with two instances: exact arithmetic, and
IEEE binary64 arithmetic, which rounds every result to 53 significant bits.
Comparisons of `realtype` values are exact in both.
The collaborators `is_sm_et`, `CVode`, `update` and `PrintData` are external to
the file; they are parameters of the model, acting on an abstract world state
(the solver memory, `CV_Y` and the model data), and every call is logged in a
trace.
-/

namespace PIHM

/-! ## Sub-step selection (lines 220-225)

The two assignments are written over an arbitrary linear order with the
addition and the subtraction as arguments, so that they can be read with exact
operations (over any ordered field, `ℝ` included) and with rounding ones. -/

/-- The sub-step target of lines 220-224:
`if (t + ETStep >= Tout[i+1]) NextPtr = Tout[i+1]; else NextPtr = t + ETStep;` -/
def NextPtr {α : Type} [LinearOrder α] (add : α → α → α) (t ETStep ToutNext : α) : α :=
  if add t ETStep ≥ ToutNext then ToutNext else add t ETStep

/-- The sub-step size of line 225: `StepSize = NextPtr - t;` -/
def StepSize {α : Type} [LinearOrder α] (add sub : α → α → α) (t ETStep ToutNext : α) : α :=
  sub (NextPtr add t ETStep ToutNext) t

/-! ## The arithmetic of `realtype` -/

/-- The addition and the subtraction of `realtype` values. -/
structure Arith where
  add : ℚ → ℚ → ℚ
  sub : ℚ → ℚ → ℚ

/-- Arithmetic without rounding. -/
def exactArith : Arith where
  add := fun a b => a + b
  sub := fun a b => a - b

/-- The integer nearest to `q`, the even one of the two when `q` lies half-way. -/
def roundHalfEven (q : ℚ) : ℤ :=
  if q - ⌊q⌋ < 1 / 2 then ⌊q⌋
  else if 1 / 2 < q - ⌊q⌋ then ⌊q⌋ + 1
  else if ⌊q⌋ % 2 = 0 then ⌊q⌋ else ⌊q⌋ + 1

/-- The spacing of the binary64 numbers around `x ≠ 0`: `2 ^ (e - 52)` where
`2 ^ e ≤ |x| < 2 ^ (e + 1)`. -/
def ulp (x : ℚ) : ℚ := (2 : ℚ) ^ (Int.log 2 |x| - 52)

/-- The binary64 number (C `double`) nearest to `x`, ties to even: `x` rounded to
53 significant bits. The exponent range is not bounded (no overflow to
infinity, no subnormal numbers), which the values used here stay clear of. -/
def roundDouble (x : ℚ) : ℚ :=
  if x = 0 then 0 else roundHalfEven (x / ulp x) * ulp x

/-- IEEE binary64 arithmetic: the exact result, rounded. -/
def binary64 : Arith where
  add := fun a b => roundDouble (a + b)
  sub := fun a b => roundDouble (a - b)

/-- The arithmetic gives the exact sum and difference of any two integers of
absolute value at most `bound`. -/
def Arith.ExactOnInts (ar : Arith) (bound : ℤ) : Prop :=
  ∀ a b : ℤ, |a| ≤ bound → |b| ≤ bound →
    ar.add a b = ((a + b : ℤ) : ℚ) ∧ ar.sub a b = ((a - b : ℤ) : ℚ)

/-! ## Collaborators, events and loop state -/

/-- A collaborator call of lines 200-234 that is given a time, with its time
arguments. `CVode` also records what the call gave back: the time written
through `&t` and the returned flag. (`CVSpgmr` on line 201 takes no time and is
not logged; the `printf` of line 229 writes to standard output and is not a
collaborator call.) -/
inductive Event where
  | CVodeMalloc (t0 : ℚ)
  | is_sm_et (t StepSize : ℚ)
  | CVode (tout tret : ℚ) (flag : Int)
  | update (t : ℚ)
  | PrintData (t : ℚ)
  deriving DecidableEq, Repr

/-- The external collaborators, as functions on an abstract world state `σ`.

* `CVodeCreate_isNull`: whether `CVodeCreate` returns `NULL`;
* `setupFlag`: the value returned by `CVSpgmr` (line 201), the last set-up call,
  which is what `flag` holds when the loops are entered;
* `is_sm_et t StepSize`, `update t`, `PrintData t`: change the world only;
* `CVode tout t`: called with the target `tout` and the current content `t` of
  the output cell `&t`; gives the new world, the new content of `t` and the
  returned flag. -/
structure Collab (σ : Type) where
  CVodeCreate_isNull : Bool
  setupFlag : Int
  is_sm_et : ℚ → ℚ → σ → σ
  CVode : ℚ → ℚ → σ → σ × ℚ × Int
  update : ℚ → σ → σ
  PrintData : ℚ → σ → σ

/-- The fields of `Control_Data` read by the loop. -/
structure Control_Data where
  StartTime : ℚ
  NumSteps : Int
  Tout : List ℚ
  ETStep : ℚ

/-- The variables of `main` that the loop changes, the world and the trace. -/
structure LoopState (σ : Type) where
  t : ℚ
  flag : Int
  world : σ
  trace : List Event

/-- How an execution of the model ended: normally, with the iteration budget
used up, or by reading `Tout[i+1]` outside the array. -/
inductive Status where
  | ok
  | outOfFuel
  | outOfBounds
  deriving DecidableEq, Repr

/-- The body of the inner `while` loop, lines 220-231, with the arithmetic `ar`. -/
def subStep {σ : Type} (ar : Arith) (c : Collab σ) (ETStep ToutNext : ℚ) (s : LoopState σ) :
    LoopState σ :=
  let np := NextPtr ar.add s.t ETStep ToutNext
  let ss := ar.sub np s.t
  let w1 := c.is_sm_et s.t ss s.world
  let r := c.CVode np s.t w1
  let w3 := c.update r.2.1 r.1
  { t := r.2.1
    flag := r.2.2
    world := w3
    trace := s.trace ++ [Event.is_sm_et s.t ss, Event.CVode np r.2.1 r.2.2, Event.update r.2.1] }

/-- The inner loop `while (t < Tout[i+1]) { ... }` of lines 219-232; the `Nat`
argument bounds the number of iterations. -/
def whileLoop {σ : Type} (ar : Arith) (c : Collab σ) (ETStep ToutNext : ℚ) :
    Nat → LoopState σ → Status × LoopState σ
  | 0, s => if s.t < ToutNext then (Status.outOfFuel, s) else (Status.ok, s)
  | fuel + 1, s =>
    if s.t < ToutNext then whileLoop ar c ETStep ToutNext fuel (subStep ar c ETStep ToutNext s)
    else (Status.ok, s)

/-- The call `PrintData(Ofile, &cData, mData, CV_Y, t)` of line 233. -/
def printData {σ : Type} (c : Collab σ) (s : LoopState σ) : LoopState σ :=
  { s with world := c.PrintData s.t s.world, trace := s.trace ++ [Event.PrintData s.t] }

/-- The outer loop `for (i = 0; i < cData.NumSteps; i++) { while ...; PrintData }`
of lines 209-234, started at index `i`; the first `Nat` argument bounds the
number of iterations of this loop and of each inner loop. -/
def forLoop {σ : Type} (ar : Arith) (c : Collab σ) (cd : Control_Data) :
    Nat → Nat → LoopState σ → Status × LoopState σ
  | 0, i, s => if (i : Int) < cd.NumSteps then (Status.outOfFuel, s) else (Status.ok, s)
  | fuel + 1, i, s =>
    if (i : Int) < cd.NumSteps then
      match cd.Tout[i + 1]? with
      | none => (Status.outOfBounds, s)
      | some ToutNext =>
        match whileLoop ar c cd.ETStep ToutNext (fuel + 1) s with
        | (Status.ok, s1) => forLoop ar c cd fuel (i + 1) (printData c s1)
        | (st, s1) => (st, s1)
    else (Status.ok, s)

/-- Lines 200-234: `CVodeMalloc(cvode_mem, f, cData.StartTime, ...)`,
`t = cData.StartTime` and the loops. `flag0` is the flag left by the set-up
calls and `w` the world after them. -/
def timeStepping {σ : Type} (ar : Arith) (c : Collab σ) (cd : Control_Data) (fuel : Nat)
    (flag0 : Int) (w : σ) : Status × LoopState σ :=
  forLoop ar c cd fuel 0
    { t := cd.StartTime, flag := flag0, world := w, trace := [Event.CVodeMalloc cd.StartTime] }

/-- The result of `main`: how the execution ended, the value returned (if it
returned) and the trace of collaborator calls. -/
structure MainResult where
  status : Status
  returned : Option Int
  trace : List Event
  deriving DecidableEq, Repr

/-- Lines 191-240 of `main`: `return (1)` when `CVodeCreate` gave `NULL`, else the
time stepping followed by `return 0`. -/
def main {σ : Type} (ar : Arith) (c : Collab σ) (cd : Control_Data) (fuel : Nat) (w : σ) :
    MainResult :=
  if c.CVodeCreate_isNull then { status := Status.ok, returned := some 1, trace := [] }
  else
    match timeStepping ar c cd fuel c.setupFlag w with
    | (Status.ok, s) => { status := Status.ok, returned := some 0, trace := s.trace }
    | (st, s) => { status := st, returned := none, trace := s.trace }

/-- A solver that always reaches the requested target: `*t = tout`, flag
`CV_SUCCESS = 0`; the other collaborators leave the (trivial) world alone. -/
def idealCollab : Collab Unit where
  CVodeCreate_isNull := false
  setupFlag := 0
  is_sm_et := fun _ _ w => w
  CVode := fun tout _ w => (w, tout, 0)
  update := fun _ w => w
  PrintData := fun _ w => w

/-- A solver whose first call fails: it returns `CV_CONV_FAILURE = -4` and
leaves `t` where it was; every later call reaches its target with flag `0`.
The world counts the `CVode` calls made so far. -/
def failOnceCollab : Collab Nat where
  CVodeCreate_isNull := false
  setupFlag := 0
  is_sm_et := fun _ _ w => w
  CVode := fun tout t w => if w = 0 then (w + 1, t, -4) else (w + 1, tout, 0)
  update := fun _ w => w
  PrintData := fun _ w => w

/-! ## Views of a trace -/

/-- The `StepSize` arguments of the `is_sm_et` calls of a trace, in order. -/
def stepSizes (tr : List Event) : List ℚ :=
  tr.filterMap fun e => match e with
    | Event.is_sm_et _ ss => some ss
    | _ => none

/-- The time arguments of the `is_sm_et` calls of a trace: the sub-step starts. -/
def subStepStarts (tr : List Event) : List ℚ :=
  tr.filterMap fun e => match e with
    | Event.is_sm_et t _ => some t
    | _ => none

/-- The targets `NextPtr` handed to `CVode`, in order. -/
def subStepTargets (tr : List Event) : List ℚ :=
  tr.filterMap fun e => match e with
    | Event.CVode tout _ _ => some tout
    | _ => none

/-- The times handed to `PrintData`, in order. -/
def printTimes (tr : List Event) : List ℚ :=
  tr.filterMap fun e => match e with
    | Event.PrintData t => some t
    | _ => none

/-- Forget the flag a `CVode` call returned (the time it reported is kept). -/
def forgetFlag : Event → Event
  | Event.CVode tout tret _ => Event.CVode tout tret 0
  | e => e

/-- A solver "that returns exactly the requested target time": whatever the
world and the old content of `t`, the call `CVode(..., tout, ..., &t, ...)`
leaves `t = tout`. -/
def ReachesTarget {σ : Type} (c : Collab σ) : Prop :=
  ∀ (tout t : ℚ) (w : σ), (c.CVode tout t w).2.1 = tout

/-- The traces the loops can build with the arithmetic `ar`, with the current
time `t` they leave: after `CVodeMalloc(StartTime)`, any number of sub-steps
towards an entry of `Tout` that lies ahead, and of `PrintData` calls at the
current time. -/
inductive Reach (ar : Arith) (cd : Control_Data) : List Event → ℚ → Prop where
  | start : Reach ar cd [Event.CVodeMalloc cd.StartTime] cd.StartTime
  | subStep {tr : List Event} {t : ℚ} (T tret : ℚ) (flag : Int) :
      Reach ar cd tr t → T ∈ cd.Tout → t < T →
      Reach ar cd (tr ++ [Event.is_sm_et t (ar.sub (NextPtr ar.add t cd.ETStep T) t),
        Event.CVode (NextPtr ar.add t cd.ETStep T) tret flag, Event.update tret]) tret
  | print {tr : List Event} {t : ℚ} :
      Reach ar cd tr t → Reach ar cd (tr ++ [Event.PrintData t]) t

/-! ## Problem size (lines 177-183) -/

/-- A value of C type `int`: arithmetic on `int` is taken modulo `2^32` into
the range `[-2^31, 2^31)`. -/
def wrapInt (x : Int) : Int := (x + 2 ^ 31) % 2 ^ 32 - 2 ^ 31

/-- What lines 177-181 leave behind: the value of `N` (`none`: never assigned,
`N` is declared without initialiser on line 95) and the number of bytes asked
from `malloc` for `DummyY` (`none`: no allocation is made). -/
structure ProblemSize where
  N : Option Int
  DummyY_bytes : Option Nat
  deriving DecidableEq, Repr

/-- Lines 177-181:
`if (mData->UnsatMode == 2) { N = 3 * mData->NumEle + 2 * mData->NumRiv;
 mData->DummyY = malloc((3 * mData->NumEle + 2 * mData->NumRiv) * sizeof(realtype)); }`.
The `int` expression is converted to `size_t` (modulo `2^64`) for the product
with `sizeof(realtype)`, passed as `sizeof_realtype`. -/
def problemSize (sizeof_realtype : Nat) (UnsatMode NumEle NumRiv : Int) : ProblemSize :=
  if UnsatMode = 2 then
    let n := wrapInt (wrapInt (3 * NumEle) + wrapInt (2 * NumRiv))
    { N := some n
      DummyY_bytes := some ((n % 2 ^ 64).toNat * sizeof_realtype % 2 ^ 64) }
  else { N := none, DummyY_bytes := none }

/-- Line 183, `CV_Y = N_VNew_Serial(N)`: the length the state vector is created
with is whatever `N` holds after lines 177-181, whatever the mode (`none`: the
call reads an `N` that was never assigned). -/
def CV_Y_length (sizeof_realtype : Nat) (UnsatMode NumEle NumRiv : Int) : Option Int :=
  (problemSize sizeof_realtype UnsatMode NumEle NumRiv).N

/-- The number of `realtype` entries a buffer of `bytes` bytes holds. -/
def entries (sizeof_realtype bytes : Nat) : Nat := bytes / sizeof_realtype

/-! ## Heap buffers for names (lines 115-164) -/

/-- The C function `strlen`: the number of bytes of a string before its
terminating NUL. -/
def strlen (s : String) : Nat := s.utf8ByteSize

/-- Line 117: `filename = malloc(strlen(argv[1]) * sizeof(char))`; the capacity
in bytes (`sizeof(char)` is 1). -/
def filenameCapacity (argv1 : String) : Nat := strlen argv1 * 1

/-- Line 118: `strcpy(filename, argv[1])` writes the string and its NUL. -/
def filenameWritten (argv1 : String) : Nat := strlen argv1 + 1

/-- The output names of lines 121-164: index `k` of `ofn[k]`, the constant added
to `strlen(filename)` in the `malloc` call, and the extension appended by
`strcat`. -/
def ofnAllocs : List (Nat × Nat × String) :=
  [(0, 3, ".GW"), (1, 5, ".surf"), (2, 4, ".et0"), (3, 4, ".et1"), (4, 4, ".et2"),
   (5, 3, ".is"), (6, 5, ".snow"), (18, 6, ".stage"), (19, 6, ".unsat"), (20, 5, ".Rech"),
   (21, 5, ".rbed"), (22, 5, ".infil")]

/-- The capacity of `ofn[k]`: `malloc((strlen(filename) + a) * sizeof(char))`. -/
def ofnCapacity (filename : String) (a : Nat × Nat × String) : Nat :=
  (strlen filename + a.2.1) * 1

/-- The bytes held by `ofn[k]` after `strcpy(ofn[k], filename)` and
`strcat(ofn[k], ext)`: both strings and the terminating NUL. -/
def ofnWritten (filename : String) (a : Nat × Nat × String) : Nat :=
  strlen filename + strlen a.2.2 + 1

/-! ## Concrete configurations -/

/-- Reporting boundaries `[0, 6, 12]`, start time `0`, ceiling `5`. -/
def scenarioControl : Control_Data :=
  { StartTime := 0, NumSteps := 2, Tout := [0, 6, 12], ETStep := 5 }

/-- The boundaries and ceiling of `scenarioControl` with `StartTime = 100`, which
lies beyond every boundary. -/
def lateStartControl : Control_Data :=
  { StartTime := 100, NumSteps := 2, Tout := [0, 6, 12], ETStep := 5 }

/-- One reporting interval `[0, 6]` with ceiling `5`. -/
def oneIntervalControl : Control_Data :=
  { StartTime := 0, NumSteps := 1, Tout := [0, 6], ETStep := 5 }

/-- A run that starts at `10^16` and is to reach the boundary `10^16 + 4` with
ceiling `1`. All three are binary64 numbers; around `10^16` these are 2 apart. -/
def farControl : Control_Data :=
  { StartTime := 10000000000000000, NumSteps := 1,
    Tout := [0, 10000000000000004], ETStep := 1 }

/-- A run that starts at `1` and is to reach the boundary `10^16 + 2` in one
sub-step (ceiling `10^16 + 2`). All values are binary64 numbers. -/
def wideControl : Control_Data :=
  { StartTime := 1, NumSteps := 1,
    Tout := [0, 10000000000000002], ETStep := 10000000000000002 }

/-- The loop state on entry of the loops, for a trivial world. -/
def entryState (t : ℚ) : LoopState Unit :=
  { t := t, flag := 0, world := (), trace := [] }

/-! ## Theorems: sub-step selection -/

theorem NextPtr_eq_min {α : Type} [LinearOrder α] (add : α → α → α) (t ETStep ToutNext : α) :
    NextPtr add t ETStep ToutNext = min (add t ETStep) ToutNext := by
  unfold NextPtr
  split_ifs with h
  · exact (min_eq_right h).symm
  · exact (min_eq_left (le_of_lt (not_le.mp h))).symm

theorem NextPtr_le {α : Type} [LinearOrder α] (add : α → α → α) (t ETStep ToutNext : α) :
    NextPtr add t ETStep ToutNext ≤ ToutNext := by
  rw [NextPtr_eq_min]
  exact min_le_right _ _

theorem StepSize_le {α : Type} [LinearOrderedField α] (t ETStep ToutNext : α) :
    StepSize (fun a b => a + b) (fun a b => a - b) t ETStep ToutNext ≤ ETStep := by
  unfold StepSize NextPtr
  split_ifs with h
  · simp only [ge_iff_le] at h
    show ToutNext - t ≤ ETStep
    linarith
  · show t + ETStep - t ≤ ETStep
    linarith

/-! ## Binary64 rounding -/

theorem roundHalfEven_intCast (k : ℤ) : roundHalfEven (k : ℚ) = k := by
  simp [roundHalfEven]

theorem roundHalfEven_add_half (k : ℤ) :
    roundHalfEven ((k : ℚ) + 1 / 2) = if k % 2 = 0 then k else k + 1 := by
  have hf : ⌊(k : ℚ) + 1 / 2⌋ = k := by
    rw [Int.floor_eq_iff]
    constructor <;> norm_num
  unfold roundHalfEven
  rw [hf]
  norm_num

theorem log_binade {x : ℚ} {e : ℤ} (h1 : (2 : ℚ) ^ e ≤ |x|) (h2 : |x| < (2 : ℚ) ^ (e + 1)) :
    Int.log 2 |x| = e := by
  have hpos : 0 < |x| := lt_of_lt_of_le (by positivity) h1
  have ha : e ≤ Int.log 2 |x| :=
    (Int.zpow_le_iff_le_log (b := 2) (by norm_num) hpos (x := e)).mp (by exact_mod_cast h1)
  have hb : Int.log 2 |x| < e + 1 :=
    (Int.lt_zpow_iff_log_lt (b := 2) (by norm_num) hpos (x := e + 1)).mp (by exact_mod_cast h2)
  omega

/-- Rounding a number of the binade `[2 ^ e, 2 ^ (e + 1))`. -/
theorem roundDouble_binade {x : ℚ} {e : ℤ} (h1 : (2 : ℚ) ^ e ≤ |x|)
    (h2 : |x| < (2 : ℚ) ^ (e + 1)) :
    roundDouble x = roundHalfEven (x / (2 : ℚ) ^ (e - 52)) * (2 : ℚ) ^ (e - 52) := by
  have hx : x ≠ 0 := by
    intro h
    rw [h, abs_zero] at h1
    exact absurd h1 (not_le.mpr (by positivity))
  unfold roundDouble ulp
  rw [if_neg hx, log_binade h1 h2]

/-- Integers below `2 ^ 53` in absolute value are binary64 numbers. -/
theorem roundDouble_intCast (n : ℤ) (hn : |n| < 2 ^ 53) : roundDouble (n : ℚ) = n := by
  by_cases h0 : n = 0
  · simp [h0, roundDouble]
  have habs : (1 : ℚ) ≤ |(n : ℚ)| := by
    have : (1 : ℤ) ≤ |n| := Int.one_le_abs h0
    exact_mod_cast this
  have hpos : 0 < |(n : ℚ)| := lt_of_lt_of_le one_pos habs
  have hlt : |(n : ℚ)| < (2 : ℚ) ^ (53 : ℤ) := by
    have : ((|n| : ℤ) : ℚ) < ((2 ^ 53 : ℤ) : ℚ) := by exact_mod_cast hn
    rw [Int.cast_abs] at this
    norm_num at this ⊢
    exact this
  have he0 : 0 ≤ Int.log 2 |(n : ℚ)| :=
    (Int.zpow_le_iff_le_log (b := 2) (by norm_num) hpos (x := 0)).mp (by simpa using habs)
  have he1 : Int.log 2 |(n : ℚ)| < 53 :=
    (Int.lt_zpow_iff_log_lt (b := 2) (by norm_num) hpos (x := 53)).mp (by exact_mod_cast hlt)
  obtain ⟨k, hk⟩ : ∃ k : ℕ, Int.log 2 |(n : ℚ)| - 52 = -(k : ℤ) :=
    ⟨(52 - Int.log 2 |(n : ℚ)|).toNat, by omega⟩
  have hx : (n : ℚ) ≠ 0 := by exact_mod_cast h0
  unfold roundDouble ulp
  rw [if_neg hx, hk, zpow_neg, zpow_natCast]
  have hq : (n : ℚ) / ((2 : ℚ) ^ k)⁻¹ = ((n * 2 ^ k : ℤ) : ℚ) := by
    push_cast
    field_simp
  rw [hq, roundHalfEven_intCast]
  push_cast
  field_simp

theorem exactArith_exactOnInts (bound : ℤ) : exactArith.ExactOnInts bound := by
  intro a b _ _
  simp [exactArith]

theorem binary64_exactOnInts (bound : ℤ) (hbound : bound ≤ 2 ^ 26) :
    binary64.ExactOnInts bound := by
  intro a b ha hb
  have h1 : |a + b| < 2 ^ 53 := lt_of_le_of_lt (abs_add a b) (by omega)
  have h2 : |a - b| < 2 ^ 53 := lt_of_le_of_lt (abs_sub a b) (by omega)
  constructor
  · have := roundDouble_intCast (a + b) h1
    simpa [binary64] using this
  · have := roundDouble_intCast (a - b) h2
    simpa [binary64] using this

/-- Around `10 ^ 16` binary64 numbers are 2 apart: an odd integer `2 * k + 1` of
the binade `[2 ^ 53, 2 ^ 54)` is rounded to `2 * k` or `2 * k + 2`, whichever
has the even half. -/
theorem roundDouble_odd (k : ℤ) (h1 : 2 ^ 52 ≤ k) (h2 : k < 2 ^ 53 - 1) :
    roundDouble ((2 * k + 1 : ℤ) : ℚ) = if k % 2 = 0 then ((2 * k : ℤ) : ℚ)
      else ((2 * k + 2 : ℤ) : ℚ) := by
  have hpos : (0 : ℚ) < ((2 * k + 1 : ℤ) : ℚ) := by
    have : (0 : ℤ) < 2 * k + 1 := by omega
    exact_mod_cast this
  have hb1 : (2 : ℚ) ^ (53 : ℤ) ≤ |((2 * k + 1 : ℤ) : ℚ)| := by
    rw [abs_of_pos hpos]
    have : ((2 ^ 53 : ℤ) : ℚ) ≤ ((2 * k + 1 : ℤ) : ℚ) := by
      have : (2 ^ 53 : ℤ) ≤ 2 * k + 1 := by omega
      exact_mod_cast this
    norm_num at this ⊢
    exact this
  have hb2 : |((2 * k + 1 : ℤ) : ℚ)| < (2 : ℚ) ^ ((53 : ℤ) + 1) := by
    rw [abs_of_pos hpos]
    have : ((2 * k + 1 : ℤ) : ℚ) < ((2 ^ 54 : ℤ) : ℚ) := by
      have : 2 * k + 1 < (2 ^ 54 : ℤ) := by omega
      exact_mod_cast this
    norm_num at this ⊢
    exact this
  rw [roundDouble_binade hb1 hb2]
  have hq : ((2 * k + 1 : ℤ) : ℚ) / (2 : ℚ) ^ ((53 : ℤ) - 52) = (k : ℚ) + 1 / 2 := by
    push_cast
    norm_num
    ring
  rw [hq, roundHalfEven_add_half]
  split_ifs <;> (push_cast; norm_num; ring)

theorem roundDouble_1e16_add_1 : roundDouble 10000000000000001 = 10000000000000000 := by
  have h := roundDouble_odd 5000000000000000 (by norm_num) (by norm_num)
  norm_num at h
  exact h

theorem roundDouble_1e16_add_3 : roundDouble 10000000000000003 = 10000000000000004 := by
  have h := roundDouble_odd 5000000000000001 (by norm_num) (by norm_num)
  norm_num at h
  exact h

/-! ## Every trace of the loops is in `Reach` -/

theorem whileLoop_reach {σ : Type} (ar : Arith) (c : Collab σ) (cd : Control_Data) (T : ℚ)
    (hT : T ∈ cd.Tout) (fuel : Nat) :
    ∀ s : LoopState σ, Reach ar cd s.trace s.t →
      Reach ar cd (whileLoop ar c cd.ETStep T fuel s).2.trace (whileLoop ar c cd.ETStep T fuel s).2.t := by
  induction fuel with
  | zero =>
    intro s hs
    unfold whileLoop
    split_ifs <;> exact hs
  | succ n ih =>
    intro s hs
    unfold whileLoop
    split_ifs with hlt
    · exact ih _ (Reach.subStep T _ _ hs hT hlt)
    · exact hs

theorem forLoop_reach {σ : Type} (ar : Arith) (c : Collab σ) (cd : Control_Data) (fuel : Nat) :
    ∀ (i : Nat) (s : LoopState σ), Reach ar cd s.trace s.t →
      Reach ar cd (forLoop ar c cd fuel i s).2.trace (forLoop ar c cd fuel i s).2.t := by
  induction fuel with
  | zero =>
    intro i s hs
    unfold forLoop
    split_ifs <;> exact hs
  | succ n ih =>
    intro i s hs
    unfold forLoop
    split_ifs with hi
    · cases hget : cd.Tout[i + 1]? with
      | none => exact hs
      | some T =>
        have hT : T ∈ cd.Tout := List.getElem?_mem hget
        have hw := whileLoop_reach ar c cd T hT (n + 1) s hs
        simp only []
        cases hwl : whileLoop ar c cd.ETStep T (n + 1) s with
        | mk st s1 =>
          rw [hwl] at hw
          cases st with
          | ok => exact ih _ _ (Reach.print hw)
          | outOfFuel => exact hw
          | outOfBounds => exact hw
    · exact hs

theorem timeStepping_reach {σ : Type} (ar : Arith) (c : Collab σ) (cd : Control_Data) (fuel : Nat)
    (flag0 : Int) (w : σ) :
    Reach ar cd (timeStepping ar c cd fuel flag0 w).2.trace (timeStepping ar c cd fuel flag0 w).2.t :=
  forLoop_reach ar c cd fuel 0 _ Reach.start

/-! ## What membership in `Reach` says about a trace -/

theorem getElem?_append_of_some {α : Type} {tr : List α} (l : List α) {j : Nat} {e : α}
    (h : tr[j]? = some e) : (tr ++ l)[j]? = some e := by
  obtain ⟨hj, _⟩ := List.getElem?_eq_some.mp h
  rw [List.getElem?_append_left hj]
  exact h

theorem getElem?_append_cases {α : Type} {tr l : List α} {j : Nat} {e : α}
    (h : (tr ++ l)[j]? = some e) :
    tr[j]? = some e ∨ ∃ k, j = tr.length + k ∧ l[k]? = some e := by
  rw [List.getElem?_append] at h
  split_ifs at h with hj
  · exact Or.inl h
  · exact Or.inr ⟨j - tr.length, by omega, h⟩

theorem getElem?_block {α : Type} {a b c e : α} {k : Nat} (h : [a, b, c][k]? = some e) :
    (k = 0 ∧ e = a) ∨ (k = 1 ∧ e = b) ∨ (k = 2 ∧ e = c) := by
  match k, h with
  | 0, h => simp at h; exact Or.inl ⟨rfl, h.symm⟩
  | 1, h => simp at h; exact Or.inr (Or.inl ⟨rfl, h.symm⟩)
  | 2, h => simp at h; exact Or.inr (Or.inr ⟨rfl, h.symm⟩)
  | k + 3, h => simp at h

theorem getElem?_append_length {α : Type} (tr l : List α) (k : Nat) :
    (tr ++ l)[tr.length + k]? = l[k]? := by
  rw [List.getElem?_append_right (Nat.le_add_right _ _)]
  simp

/-- Every `is_sm_et` call of a reachable trace is made with the `StepSize`
computed for a boundary that lies ahead of its time argument. -/
theorem Reach.is_sm_et_mem {ar : Arith} {cd : Control_Data} {tr : List Event} {tc : ℚ} (h : Reach ar cd tr tc) :
    ∀ t ss, Event.is_sm_et t ss ∈ tr →
      ∃ T ∈ cd.Tout, t < T ∧ ss = StepSize ar.add ar.sub t cd.ETStep T := by
  induction h with
  | start => intro t ss hm; simp at hm
  | subStep T tret flag _ hT hlt ih =>
    intro t ss hm
    rcases List.mem_append.mp hm with hm | hm
    · exact ih t ss hm
    · simp at hm
      obtain ⟨rfl, rfl⟩ := hm
      exact ⟨T, hT, hlt, rfl⟩
  | print _ ih =>
    intro t ss hm
    rcases List.mem_append.mp hm with hm | hm
    · exact ih t ss hm
    · simp at hm

/-- In a reachable trace a `CVode` call comes right after the `is_sm_et` call of
the same sub-step and right before the `update` call with the reported time. -/
theorem Reach.CVode_at {ar : Arith} {cd : Control_Data} {tr : List Event} {tc : ℚ} (h : Reach ar cd tr tc) :
    ∀ j np tret flag, tr[j]? = some (Event.CVode np tret flag) →
      ∃ k t T, j = k + 1 ∧ tr[k]? = some (Event.is_sm_et t (ar.sub np t)) ∧
        T ∈ cd.Tout ∧ t < T ∧ np = NextPtr ar.add t cd.ETStep T ∧
        tr[j + 1]? = some (Event.update tret) := by
  induction h with
  | start =>
    intro j np tret flag hj
    match j, hj with
    | 0, hj => simp at hj
    | j + 1, hj => simp at hj
  | @subStep tr t T tret0 flag0 _ hT hlt ih =>
    intro j np tret flag hj
    rcases getElem?_append_cases hj with hj | ⟨k, rfl, hk⟩
    · obtain ⟨k, t', T', rfl, h1, h2, h3, h4, h5⟩ := ih j np tret flag hj
      exact ⟨k, t', T', rfl, getElem?_append_of_some _ h1, h2, h3, h4,
        getElem?_append_of_some _ h5⟩
    · rcases getElem?_block hk with ⟨_, he⟩ | ⟨rfl, he⟩ | ⟨_, he⟩
      · cases he
      · cases he
        refine ⟨tr.length, t, T, rfl, ?_, hT, hlt, rfl, ?_⟩
        · have := getElem?_append_length tr [Event.is_sm_et t (ar.sub (NextPtr ar.add t cd.ETStep T) t),
            Event.CVode (NextPtr ar.add t cd.ETStep T) tret0 flag0, Event.update tret0] 0
          simpa using this
        · have := getElem?_append_length tr [Event.is_sm_et t (ar.sub (NextPtr ar.add t cd.ETStep T) t),
            Event.CVode (NextPtr ar.add t cd.ETStep T) tret0 flag0, Event.update tret0] 2
          simpa [Nat.add_assoc] using this
      · cases he
  | @print tr t _ ih =>
    intro j np tret flag hj
    rcases getElem?_append_cases hj with hj | ⟨k, rfl, hk⟩
    · obtain ⟨k, t', T', rfl, h1, h2, h3, h4, h5⟩ := ih j np tret flag hj
      exact ⟨k, t', T', rfl, getElem?_append_of_some _ h1, h2, h3, h4,
        getElem?_append_of_some _ h5⟩
    · match k, hk with
      | 0, hk => simp at hk
      | k + 1, hk => simp at hk

/-- In a reachable trace an `is_sm_et` call is followed at once by a `CVode`
call, and its `StepSize` is the computed difference of that call's target and
its own time. -/
theorem Reach.is_sm_et_at {ar : Arith} {cd : Control_Data} {tr : List Event} {tc : ℚ} (h : Reach ar cd tr tc) :
    ∀ j t ss, tr[j]? = some (Event.is_sm_et t ss) →
      ∃ np tret flag, tr[j + 1]? = some (Event.CVode np tret flag) ∧ ss = ar.sub np t := by
  induction h with
  | start =>
    intro j t ss hj
    match j, hj with
    | 0, hj => simp at hj
    | j + 1, hj => simp at hj
  | @subStep tr t T tret0 flag0 _ hT hlt ih =>
    intro j t' ss hj
    rcases getElem?_append_cases hj with hj | ⟨k, rfl, hk⟩
    · obtain ⟨np, tret, flag, h1, h2⟩ := ih j t' ss hj
      exact ⟨np, tret, flag, getElem?_append_of_some _ h1, h2⟩
    · rcases getElem?_block hk with ⟨rfl, he⟩ | ⟨_, he⟩ | ⟨_, he⟩
      · cases he
        refine ⟨NextPtr ar.add t cd.ETStep T, tret0, flag0, ?_, rfl⟩
        have := getElem?_append_length tr [Event.is_sm_et t (ar.sub (NextPtr ar.add t cd.ETStep T) t),
            Event.CVode (NextPtr ar.add t cd.ETStep T) tret0 flag0, Event.update tret0] 1
        simpa [Nat.add_assoc] using this
      · cases he
      · cases he
  | @print tr t _ ih =>
    intro j t' ss hj
    rcases getElem?_append_cases hj with hj | ⟨k, rfl, hk⟩
    · obtain ⟨np, tret, flag, h1, h2⟩ := ih j t' ss hj
      exact ⟨np, tret, flag, getElem?_append_of_some _ h1, h2⟩
    · match k, hk with
      | 0, hk => simp at hk
      | k + 1, hk => simp at hk

/-- The current time of a reachable trace is the time of its last event, which
is the `CVodeMalloc`, an `update` or a `PrintData` call. -/
theorem Reach.last {ar : Arith} {cd : Control_Data} {tr : List Event} {tc : ℚ} (h : Reach ar cd tr tc) :
    tr.getLast? = some (Event.CVodeMalloc tc) ∨ tr.getLast? = some (Event.update tc) ∨
      tr.getLast? = some (Event.PrintData tc) := by
  induction h with
  | start => exact Or.inl rfl
  | subStep T tret flag _ _ _ _ => right; left; simp
  | print _ _ => right; right; simp

/-- In a reachable trace, what follows an `update` call is a call at the same
time: the `is_sm_et` of the next sub-step, or `PrintData`. -/
theorem Reach.after_update {ar : Arith} {cd : Control_Data} {tr : List Event} {tc : ℚ}
    (h : Reach ar cd tr tc) :
    ∀ j tret e, tr[j]? = some (Event.update tret) → tr[j + 1]? = some e →
      (∃ ss, e = Event.is_sm_et tret ss) ∨ e = Event.PrintData tret := by
  induction h with
  | start =>
    intro j tret e hj
    match j, hj with
    | 0, hj => simp at hj
    | j + 1, hj => simp at hj
  | @subStep tr t T tret0 flag0 hr hT hlt ih =>
    intro j tret e hj he
    rcases getElem?_append_cases hj with hj | ⟨k, rfl, hk⟩
    · rcases getElem?_append_cases he with he | ⟨k, hk1, hk⟩
      · exact ih j tret e hj he
      · obtain ⟨hlen, _⟩ := List.getElem?_eq_some.mp hj
        have hk0 : k = 0 := by omega
        subst hk0
        have hjl : j = tr.length - 1 := by omega
        have hlast : tr.getLast? = some (Event.update tret) := by
          rw [List.getLast?_eq_getElem?, ← hjl]; exact hj
        simp at hk
        rcases hr.last with h1 | h1 | h1
        · rw [hlast] at h1; cases h1
        · rw [hlast] at h1
          cases h1
          exact Or.inl ⟨_, hk.symm⟩
        · rw [hlast] at h1; cases h1
    · rcases getElem?_block hk with ⟨_, hc⟩ | ⟨_, hc⟩ | ⟨rfl, hc⟩
      · cases hc
      · cases hc
      · have hnone : (tr ++ [Event.is_sm_et t (ar.sub (NextPtr ar.add t cd.ETStep T) t),
            Event.CVode (NextPtr ar.add t cd.ETStep T) tret0 flag0, Event.update tret0])[tr.length + 2 + 1]?
            = none := by
          rw [List.getElem?_eq_none]
          simp
        rw [hnone] at he
        cases he
  | @print tr t hr ih =>
    intro j tret e hj he
    rcases getElem?_append_cases hj with hj | ⟨k, rfl, hk⟩
    · rcases getElem?_append_cases he with he | ⟨k, hk1, hk⟩
      · exact ih j tret e hj he
      · obtain ⟨hlen, _⟩ := List.getElem?_eq_some.mp hj
        have hk0 : k = 0 := by omega
        subst hk0
        have hjl : j = tr.length - 1 := by omega
        have hlast : tr.getLast? = some (Event.update tret) := by
          rw [List.getLast?_eq_getElem?, ← hjl]; exact hj
        simp at hk
        rcases hr.last with h1 | h1 | h1
        · rw [hlast] at h1; cases h1
        · rw [hlast] at h1
          cases h1
          exact Or.inr hk.symm
        · rw [hlast] at h1; cases h1
    · match k, hk with
      | 0, hk => simp at hk
      | k + 1, hk => simp at hk

theorem subStepStarts_append (tr l : List Event) :
    subStepStarts (tr ++ l) = subStepStarts tr ++ subStepStarts l := by
  simp [subStepStarts]

/-- As long as a reachable trace has no `is_sm_et` call, its current time is
`StartTime`; and its first `is_sm_et` call, if any, is at `StartTime`. -/
theorem Reach.first_is_sm_et {ar : Arith} {cd : Control_Data} {tr : List Event} {tc : ℚ}
    (h : Reach ar cd tr tc) :
    (subStepStarts tr = [] → tc = cd.StartTime) ∧
      ∀ t, (subStepStarts tr).head? = some t → t = cd.StartTime := by
  induction h with
  | start => exact ⟨fun _ => rfl, fun t ht => by simp [subStepStarts] at ht⟩
  | @subStep tr t T tret flag _ _ _ ih =>
    have hb : subStepStarts [Event.is_sm_et t (ar.sub (NextPtr ar.add t cd.ETStep T) t),
        Event.CVode (NextPtr ar.add t cd.ETStep T) tret flag, Event.update tret] = [t] := by
      simp [subStepStarts]
    rw [subStepStarts_append, hb]
    refine ⟨fun hnil => by simp at hnil, fun t' ht' => ?_⟩
    cases hs : subStepStarts tr with
    | nil =>
      rw [hs] at ht'
      simp at ht'
      rw [← ht']
      exact ih.1 hs
    | cons a l =>
      rw [hs] at ht'
      simp at ht'
      exact ih.2 t' (by rw [hs, ← ht']; rfl)
  | @print tr t _ ih =>
    have hb : subStepStarts [Event.PrintData t] = [] := by simp [subStepStarts]
    rw [subStepStarts_append, hb, List.append_nil]
    exact ih

/-! ## The inner loop, for every arithmetic -/

theorem subStep_t {σ : Type} (ar : Arith) {c : Collab σ} (hc : ReachesTarget c)
    (ETStep ToutNext : ℚ) (s : LoopState σ) :
    (subStep ar c ETStep ToutNext s).t = NextPtr ar.add s.t ETStep ToutNext := by
  simp only [subStep]
  exact hc _ _ _

theorem subStep_stepSizes {σ : Type} (ar : Arith) (c : Collab σ) (ETStep ToutNext : ℚ)
    (s : LoopState σ) :
    stepSizes (subStep ar c ETStep ToutNext s).trace
      = stepSizes s.trace ++ [StepSize ar.add ar.sub s.t ETStep ToutNext] := by
  simp [subStep, stepSizes, StepSize]

theorem subStep_printTimes {σ : Type} (ar : Arith) (c : Collab σ) (ETStep ToutNext : ℚ)
    (s : LoopState σ) :
    printTimes (subStep ar c ETStep ToutNext s).trace = printTimes s.trace := by
  simp [subStep, printTimes]

theorem whileLoop_done {σ : Type} (ar : Arith) (c : Collab σ) (ETStep ToutNext : ℚ)
    (fuel : Nat) (s : LoopState σ) (h : ¬ s.t < ToutNext) :
    whileLoop ar c ETStep ToutNext fuel s = (Status.ok, s) := by
  cases fuel <;> simp [whileLoop, h]

theorem whileLoop_step {σ : Type} (ar : Arith) (c : Collab σ) (ETStep ToutNext : ℚ)
    (fuel : Nat) (s : LoopState σ) (h : s.t < ToutNext) :
    whileLoop ar c ETStep ToutNext (fuel + 1) s
      = whileLoop ar c ETStep ToutNext fuel (subStep ar c ETStep ToutNext s) := by
  simp [whileLoop, h]

/-- Once the inner loop ends within its budget, a larger budget changes nothing. -/
theorem whileLoop_mono {σ : Type} (ar : Arith) (c : Collab σ) (ETStep ToutNext : ℚ)
    (fuel : Nat) :
    ∀ (s : LoopState σ), (whileLoop ar c ETStep ToutNext fuel s).1 = Status.ok →
      ∀ d, whileLoop ar c ETStep ToutNext (fuel + d) s
        = whileLoop ar c ETStep ToutNext fuel s := by
  induction fuel with
  | zero =>
    intro s h d
    by_cases ht : s.t < ToutNext
    · simp [whileLoop, ht] at h
    · rw [whileLoop_done ar c _ _ _ s ht, whileLoop_done ar c _ _ _ s ht]
  | succ n ih =>
    intro s h d
    by_cases ht : s.t < ToutNext
    · have e : n + 1 + d = (n + d) + 1 := by omega
      rw [e, whileLoop_step ar c _ _ (n + d) s ht, whileLoop_step ar c _ _ n s ht]
      rw [whileLoop_step ar c _ _ n s ht] at h
      exact ih _ h d
    · rw [whileLoop_done ar c _ _ _ s ht, whileLoop_done ar c _ _ _ s ht]

/-- The inner loop makes no `PrintData` call. -/
theorem whileLoop_printTimes {σ : Type} (ar : Arith) (c : Collab σ) (ETStep ToutNext : ℚ)
    (fuel : Nat) :
    ∀ (s : LoopState σ),
      printTimes (whileLoop ar c ETStep ToutNext fuel s).2.trace = printTimes s.trace := by
  induction fuel with
  | zero =>
    intro s
    unfold whileLoop
    split_ifs <;> rfl
  | succ n ih =>
    intro s
    by_cases ht : s.t < ToutNext
    · rw [whileLoop_step ar c _ _ _ s ht, ih, subStep_printTimes]
    · rw [whileLoop_done ar c _ _ _ s ht]

/-- Whatever the arithmetic, when the inner loop is entered at or before the
boundary and ends, it ends exactly on the boundary. -/
theorem whileLoop_exit {σ : Type} (ar : Arith) {c : Collab σ} (hc : ReachesTarget c)
    (ETStep ToutNext : ℚ) (fuel : Nat) :
    ∀ (s : LoopState σ), s.t ≤ ToutNext →
      (whileLoop ar c ETStep ToutNext fuel s).1 = Status.ok →
      (whileLoop ar c ETStep ToutNext fuel s).2.t = ToutNext := by
  induction fuel with
  | zero =>
    intro s hle hok
    by_cases ht : s.t < ToutNext
    · simp [whileLoop, ht] at hok
    · rw [whileLoop_done ar c _ _ _ s ht]
      exact le_antisymm hle (not_lt.mp ht)
  | succ n ih =>
    intro s hle hok
    by_cases ht : s.t < ToutNext
    · rw [whileLoop_step ar c _ _ _ s ht] at hok ⊢
      exact ih _ (by rw [subStep_t ar hc]; exact NextPtr_le _ _ _ _) hok
    · rw [whileLoop_done ar c _ _ _ s ht]
      exact le_antisymm hle (not_lt.mp ht)

/-- When the rounded sum `t + ETStep` is `t` again, the inner loop never ends and
the time stays where it is. -/
theorem whileLoop_absorbed {σ : Type} (ar : Arith) {c : Collab σ} (hc : ReachesTarget c)
    (ETStep ToutNext : ℚ) (fuel : Nat) :
    ∀ (s : LoopState σ), ar.add s.t ETStep = s.t → s.t < ToutNext →
      (whileLoop ar c ETStep ToutNext fuel s).1 = Status.outOfFuel ∧
      (whileLoop ar c ETStep ToutNext fuel s).2.t = s.t := by
  induction fuel with
  | zero =>
    intro s _ ht
    simp [whileLoop, ht]
  | succ n ih =>
    intro s hadd ht
    have ht1 : (subStep ar c ETStep ToutNext s).t = s.t := by
      rw [subStep_t ar hc]
      unfold NextPtr
      rw [hadd, if_neg (not_le.mpr ht)]
    rw [whileLoop_step ar c _ _ _ s ht]
    obtain ⟨h1, h2⟩ := ih (subStep ar c ETStep ToutNext s) (by rw [ht1]; exact hadd)
      (by rw [ht1]; exact ht)
    exact ⟨h1, by rw [h2, ht1]⟩

/-! ## The inner loop in exact arithmetic, with a solver that reaches its target -/

/-- One sub-step lowers the number of sub-steps still needed by one. -/
theorem ceil_NextPtr {t ETStep ToutNext : ℚ} (hE : 0 < ETStep) (ht : t < ToutNext) :
    ⌈(ToutNext - t) / ETStep⌉₊
      = ⌈(ToutNext - NextPtr exactArith.add t ETStep ToutNext) / ETStep⌉₊ + 1 := by
  unfold NextPtr
  simp only [exactArith]
  split_ifs with h
  · have h1 : ⌈(ToutNext - t) / ETStep⌉₊ = 1 := by
      rw [Nat.ceil_eq_iff (by norm_num)]
      constructor
      · simpa using div_pos (sub_pos.mpr ht) hE
      · rw [Nat.cast_one, div_le_one hE]
        linarith [ge_iff_le.mp h]
    simp [h1]
  · have hx : (ToutNext - t) / ETStep = (ToutNext - (t + ETStep)) / ETStep + 1 := by
      field_simp
      ring
    have h0 : 0 ≤ (ToutNext - (t + ETStep)) / ETStep :=
      div_nonneg (by linarith [not_le.mp h]) hE.le
    rw [hx, Nat.ceil_add_one h0]

/-- The inner loop with exact arithmetic, a positive ceiling and a solver that
reaches its target: it ends exactly when the budget allows
`⌈(Tout[i+1] - t) / ETStep⌉₊` sub-steps, at `max t Tout[i+1]`, and its step sizes
add up to `max 0 (Tout[i+1] - t)`. -/
theorem whileLoop_ideal {σ : Type} {c : Collab σ} (hc : ReachesTarget c) {ETStep : ℚ}
    (hE : 0 < ETStep) (ToutNext : ℚ) (fuel : Nat) :
    ∀ (s : LoopState σ),
      (fuel < ⌈(ToutNext - s.t) / ETStep⌉₊ →
        (whileLoop exactArith c ETStep ToutNext fuel s).1 = Status.outOfFuel) ∧
      (⌈(ToutNext - s.t) / ETStep⌉₊ ≤ fuel →
        (whileLoop exactArith c ETStep ToutNext fuel s).1 = Status.ok ∧
        (whileLoop exactArith c ETStep ToutNext fuel s).2.t = max s.t ToutNext ∧
        printTimes (whileLoop exactArith c ETStep ToutNext fuel s).2.trace
          = printTimes s.trace ∧
        ∃ L : List ℚ,
          stepSizes (whileLoop exactArith c ETStep ToutNext fuel s).2.trace
            = stepSizes s.trace ++ L ∧
          L.length = ⌈(ToutNext - s.t) / ETStep⌉₊ ∧ L.sum = max 0 (ToutNext - s.t)) := by
  induction fuel with
  | zero =>
    intro s
    by_cases ht : s.t < ToutNext
    · have hk := ceil_NextPtr hE ht
      refine ⟨fun _ => by simp [whileLoop, ht], fun h => by omega⟩
    · have h0 : ⌈(ToutNext - s.t) / ETStep⌉₊ = 0 := by
        rw [Nat.ceil_eq_zero]
        exact div_nonpos_of_nonpos_of_nonneg (by linarith) hE.le
      rw [whileLoop_done exactArith c _ _ _ s ht, h0]
      refine ⟨fun h => by omega, fun _ => ⟨rfl, ?_, rfl, [], by simp, rfl, ?_⟩⟩
      · exact (max_eq_left (not_lt.mp ht)).symm
      · simp only [List.sum_nil]
        exact (max_eq_left (by linarith)).symm
  | succ n ih =>
    intro s
    by_cases ht : s.t < ToutNext
    · have hk := ceil_NextPtr hE ht
      obtain ⟨ih1, ih2⟩ := ih (subStep exactArith c ETStep ToutNext s)
      rw [subStep_t exactArith hc] at ih1 ih2
      rw [whileLoop_step exactArith c _ _ _ s ht, hk]
      refine ⟨fun h => ih1 (by omega), fun h => ?_⟩
      obtain ⟨h1, h2, h3, L, h4, h5, h6⟩ := ih2 (by omega)
      refine ⟨h1, ?_, ?_, StepSize exactArith.add exactArith.sub s.t ETStep ToutNext :: L,
        ?_, ?_, ?_⟩
      · rw [h2, max_eq_right (NextPtr_le _ _ _ _), max_eq_right ht.le]
      · rw [h3, subStep_printTimes]
      · rw [h4, subStep_stepSizes]
        simp
      · simp [h5]
      · rw [List.sum_cons, h6,
          max_eq_right (by linarith [NextPtr_le exactArith.add s.t ETStep ToutNext]),
          max_eq_right (by linarith)]
        show NextPtr exactArith.add s.t ETStep ToutNext - s.t
          + (ToutNext - NextPtr exactArith.add s.t ETStep ToutNext) = ToutNext - s.t
        ring
    · have h0 : ⌈(ToutNext - s.t) / ETStep⌉₊ = 0 := by
        rw [Nat.ceil_eq_zero]
        exact div_nonpos_of_nonpos_of_nonneg (by linarith) hE.le
      rw [whileLoop_done exactArith c _ _ _ s ht, h0]
      refine ⟨fun h => by omega, fun _ => ⟨rfl, ?_, rfl, [], by simp, rfl, ?_⟩⟩
      · exact (max_eq_left (not_lt.mp ht)).symm
      · simp only [List.sum_nil]
        exact (max_eq_left (by linarith)).symm

/-- With exact arithmetic and a ceiling that is not positive the inner loop
never ends and the time never moves towards the boundary. -/
theorem whileLoop_stuck {σ : Type} {c : Collab σ} (hc : ReachesTarget c) {ETStep : ℚ}
    (hE : ETStep ≤ 0) (ToutNext : ℚ) (fuel : Nat) :
    ∀ (s : LoopState σ), s.t < ToutNext →
      (whileLoop exactArith c ETStep ToutNext fuel s).1 = Status.outOfFuel ∧
      (whileLoop exactArith c ETStep ToutNext fuel s).2.t ≤ s.t := by
  induction fuel with
  | zero =>
    intro s ht
    simp [whileLoop, ht]
  | succ n ih =>
    intro s ht
    have hnp : NextPtr exactArith.add s.t ETStep ToutNext = s.t + ETStep := by
      unfold NextPtr
      simp only [exactArith]
      rw [if_neg]
      intro h
      linarith [ge_iff_le.mp h]
    have ht1 : (subStep exactArith c ETStep ToutNext s).t = s.t + ETStep := by
      rw [subStep_t exactArith hc, hnp]
    obtain ⟨h1, h2⟩ := ih (subStep exactArith c ETStep ToutNext s) (by rw [ht1]; linarith)
    rw [whileLoop_step exactArith c _ _ _ s ht]
    exact ⟨h1, by rw [ht1] at h2; linarith⟩

/-! ## The outer loop -/

theorem printData_printTimes {σ : Type} (c : Collab σ) (s : LoopState σ) :
    printTimes (printData c s).trace = printTimes s.trace ++ [s.t] := by
  simp [printData, printTimes]

theorem forLoop_done {σ : Type} (ar : Arith) (c : Collab σ) (cd : Control_Data)
    (fuel i : Nat) (s : LoopState σ) (h : ¬ (i : Int) < cd.NumSteps) :
    forLoop ar c cd fuel i s = (Status.ok, s) := by
  cases fuel <;> simp [forLoop, h]

/-- Once the outer loop ends within its budget, a larger budget changes nothing. -/
theorem forLoop_mono {σ : Type} (ar : Arith) (c : Collab σ) (cd : Control_Data)
    (fuel : Nat) :
    ∀ (i : Nat) (s : LoopState σ), (forLoop ar c cd fuel i s).1 = Status.ok →
      ∀ d, forLoop ar c cd (fuel + d) i s = forLoop ar c cd fuel i s := by
  induction fuel with
  | zero =>
    intro i s h d
    by_cases hi : (i : Int) < cd.NumSteps
    · simp [forLoop, hi] at h
    · rw [forLoop_done ar c cd _ i s hi, forLoop_done ar c cd _ i s hi]
  | succ n ih =>
    intro i s h d
    by_cases hi : (i : Int) < cd.NumSteps
    · have e : n + 1 + d = (n + d) + 1 := by omega
      rw [e]
      cases hget : cd.Tout[i + 1]? with
      | none => simp [forLoop, hi, hget] at h
      | some T =>
        cases hwl : whileLoop ar c cd.ETStep T (n + 1) s with
        | mk st s1 =>
          cases st with
          | ok =>
            have hm := whileLoop_mono ar c cd.ETStep T (n + 1) s (by rw [hwl]) d
            rw [e, hwl] at hm
            simp only [forLoop, hi, if_true, hget, hwl, hm] at h ⊢
            exact ih _ _ h d
          | outOfFuel => simp [forLoop, hi, hget, hwl] at h
          | outOfBounds => simp [forLoop, hi, hget, hwl] at h
    · rw [forLoop_done ar c cd _ i s hi, forLoop_done ar c cd _ i s hi]

theorem timeStepping_mono {σ : Type} (ar : Arith) (c : Collab σ) (cd : Control_Data)
    (fuel : Nat) (flag0 : Int) (w : σ) (h : (timeStepping ar c cd fuel flag0 w).1 = Status.ok)
    (fuel1 : Nat) (hf : fuel ≤ fuel1) :
    timeStepping ar c cd fuel1 flag0 w = timeStepping ar c cd fuel flag0 w := by
  obtain ⟨d, rfl⟩ : ∃ d, fuel1 = fuel + d := ⟨fuel1 - fuel, by omega⟩
  exact forLoop_mono ar c cd fuel 0 _ h d

/-- Whatever the arithmetic: with increasing boundaries and a solver that
reaches its target, when the outer loop started at index `i` with
`t ≤ Tout[i+1]` ends, it has handed `PrintData` the boundaries
`Tout[i+1], ..., Tout[NumSteps]`. -/
theorem forLoop_ended {σ : Type} (ar : Arith) {c : Collab σ} (hc : ReachesTarget c)
    {cd : Control_Data} (hsorted : cd.Tout.Pairwise (· < ·))
    (hlen : (cd.Tout.length : Int) = cd.NumSteps + 1) (fuel : Nat) :
    ∀ (i : Nat) (s : LoopState σ), (∀ T, cd.Tout[i + 1]? = some T → s.t ≤ T) →
      (forLoop ar c cd fuel i s).1 = Status.ok →
      printTimes (forLoop ar c cd fuel i s).2.trace
        = printTimes s.trace ++ cd.Tout.drop (i + 1) := by
  have hnil : ∀ i : Nat, ¬ (i : Int) < cd.NumSteps → cd.Tout.drop (i + 1) = [] := by
    intro i hi
    apply List.drop_eq_nil_of_le
    omega
  induction fuel with
  | zero =>
    intro i s _ hok
    by_cases hi : (i : Int) < cd.NumSteps
    · simp [forLoop, hi] at hok
    · rw [forLoop_done ar c cd _ i s hi, hnil i hi, List.append_nil]
  | succ n ih =>
    intro i s hle hok
    by_cases hi : (i : Int) < cd.NumSteps
    · have hi1 : i + 1 < cd.Tout.length := by omega
      have hget : cd.Tout[i + 1]? = some cd.Tout[i + 1] := List.getElem?_eq_getElem hi1
      cases hwl : whileLoop ar c cd.ETStep cd.Tout[i + 1] (n + 1) s with
      | mk st s1 =>
        cases st with
        | ok =>
          have ht1 : s1.t = cd.Tout[i + 1] := by
            have := whileLoop_exit ar hc cd.ETStep cd.Tout[i + 1] (n + 1) s (hle _ hget)
              (by rw [hwl])
            rw [hwl] at this
            exact this
          have hp1 : printTimes s1.trace = printTimes s.trace := by
            have := whileLoop_printTimes ar c cd.ETStep cd.Tout[i + 1] (n + 1) s
            rw [hwl] at this
            exact this
          simp only [forLoop, hi, if_true, hget, hwl] at hok ⊢
          rw [ih (i + 1) (printData c s1) (by
            intro T hT
            obtain ⟨hlt, rfl⟩ := List.getElem?_eq_some.mp hT
            show s1.t ≤ _
            rw [ht1]
            exact le_of_lt (List.pairwise_iff_getElem.mp hsorted (i + 1) (i + 1 + 1) hi1 hlt
              (Nat.lt_succ_self _))) hok]
          rw [printData_printTimes, hp1, ht1, List.append_assoc]
          congr 1
          exact (List.drop_eq_getElem_cons hi1).symm
        | outOfFuel => simp [forLoop, hi, hget, hwl] at hok
        | outOfBounds => simp [forLoop, hi, hget, hwl] at hok
    · rw [forLoop_done ar c cd _ i s hi, hnil i hi, List.append_nil]

/-- With exact arithmetic, increasing boundaries, a positive ceiling and a
solver that reaches its target, the outer loop started at index `i` with
`t ≤ Tout[i+1]` ends for every large enough budget. -/
theorem forLoop_ideal {σ : Type} {c : Collab σ} (hc : ReachesTarget c) {cd : Control_Data}
    (hE : 0 < cd.ETStep) (hsorted : cd.Tout.Pairwise (· < ·))
    (hlen : (cd.Tout.length : Int) = cd.NumSteps + 1) (m : Nat) :
    ∀ (i : Nat) (s : LoopState σ), (i : Int) + m = cd.NumSteps →
      (∀ T, cd.Tout[i + 1]? = some T → s.t ≤ T) →
      ∃ K, ∀ fuel, K ≤ fuel → (forLoop exactArith c cd fuel i s).1 = Status.ok := by
  induction m with
  | zero =>
    intro i s hi _
    refine ⟨0, fun fuel _ => ?_⟩
    rw [forLoop_done exactArith c cd fuel i s (by omega)]
  | succ m ih =>
    intro i s hi hle
    have hi1 : i + 1 < cd.Tout.length := by omega
    have hget : cd.Tout[i + 1]? = some cd.Tout[i + 1] := List.getElem?_eq_getElem hi1
    have hsT : s.t ≤ cd.Tout[i + 1] := hle _ hget
    obtain ⟨h1, h2, -, -⟩ :=
      (whileLoop_ideal hc hE cd.Tout[i + 1] ⌈(cd.Tout[i + 1] - s.t) / cd.ETStep⌉₊ s).2 le_rfl
    rw [max_eq_right hsT] at h2
    obtain ⟨K, hK⟩ := ih (i + 1)
      (printData c (whileLoop exactArith c cd.ETStep cd.Tout[i + 1]
        ⌈(cd.Tout[i + 1] - s.t) / cd.ETStep⌉₊ s).2) (by push_cast; omega) (by
        intro T hT
        obtain ⟨hlt, rfl⟩ := List.getElem?_eq_some.mp hT
        show (whileLoop exactArith c cd.ETStep cd.Tout[i + 1] _ s).2.t ≤ _
        rw [h2]
        exact le_of_lt (List.pairwise_iff_getElem.mp hsorted (i + 1) (i + 1 + 1) hi1 hlt
          (Nat.lt_succ_self _)))
    refine ⟨max ⌈(cd.Tout[i + 1] - s.t) / cd.ETStep⌉₊ (K + 1), fun fuel hfuel => ?_⟩
    obtain ⟨f, rfl⟩ : ∃ f, fuel = f + 1 := ⟨fuel - 1, by omega⟩
    have hmono := whileLoop_mono exactArith c cd.ETStep cd.Tout[i + 1] _ s h1
      (f + 1 - ⌈(cd.Tout[i + 1] - s.t) / cd.ETStep⌉₊)
    rw [show ⌈(cd.Tout[i + 1] - s.t) / cd.ETStep⌉₊
        + (f + 1 - ⌈(cd.Tout[i + 1] - s.t) / cd.ETStep⌉₊) = f + 1 by omega] at hmono
    have hwl : whileLoop exactArith c cd.ETStep cd.Tout[i + 1] (f + 1) s
        = (Status.ok, (whileLoop exactArith c cd.ETStep cd.Tout[i + 1]
            ⌈(cd.Tout[i + 1] - s.t) / cd.ETStep⌉₊ s).2) := by
      rw [hmono, ← h1]
    have hfor : forLoop exactArith c cd (f + 1) i s = forLoop exactArith c cd f (i + 1)
        (printData c (whileLoop exactArith c cd.ETStep cd.Tout[i + 1]
          ⌈(cd.Tout[i + 1] - s.t) / cd.ETStep⌉₊ s).2) := by
      have hlt : (i : Int) < cd.NumSteps := by omega
      simp only [forLoop, hlt, if_true, hget, hwl]
    rw [hfor]
    exact hK f (by omega)

/-- A reachable trace starts with the `CVodeMalloc` call at `StartTime`. -/
theorem Reach.head {ar : Arith} {cd : Control_Data} {tr : List Event} {tc : ℚ}
    (h : Reach ar cd tr tc) : tr.head? = some (Event.CVodeMalloc cd.StartTime) := by
  induction h with
  | start => rfl
  | subStep T tret flag _ _ _ ih => simp [ih]
  | print _ ih => simp [ih]

theorem idealCollab_reachesTarget : ReachesTarget idealCollab := by
  intro tout t w
  rfl

/-! ## Runs on concrete configurations -/

/-- The sums and differences met in the scenario runs, for an arithmetic that is
exact on small integers. -/
theorem exactOnInts_values {ar : Arith} (har : ar.ExactOnInts 16) :
    ar.add 0 5 = 5 ∧ ar.sub 5 0 = 5 ∧ ar.add 5 5 = 10 ∧ ar.sub 6 5 = 1 ∧
    ar.add 6 5 = 11 ∧ ar.sub 11 6 = 5 ∧ ar.add 11 5 = 16 ∧ ar.sub 12 11 = 1 := by
  have h1 := (har 0 5 (by norm_num) (by norm_num)).1
  have h2 := (har 5 0 (by norm_num) (by norm_num)).2
  have h3 := (har 5 5 (by norm_num) (by norm_num)).1
  have h4 := (har 6 5 (by norm_num) (by norm_num)).2
  have h5 := (har 6 5 (by norm_num) (by norm_num)).1
  have h6 := (har 11 6 (by norm_num) (by norm_num)).2
  have h7 := (har 11 5 (by norm_num) (by norm_num)).1
  have h8 := (har 12 11 (by norm_num) (by norm_num)).2
  norm_num at h1 h2 h3 h4 h5 h6 h7 h8
  exact ⟨h1, h2, h3, h4, h5, h6, h7, h8⟩

/-- The run of `main` with a solver whose first call fails, for an arithmetic that
is exact on small integers. -/
theorem main_failOnce {ar : Arith} (har : ar.ExactOnInts 16) :
    main ar failOnceCollab oneIntervalControl 3 0 =
      { status := Status.ok
        returned := some 0
        trace := [Event.CVodeMalloc 0,
          Event.is_sm_et 0 5, Event.CVode 5 0 (-4), Event.update 0,
          Event.is_sm_et 0 5, Event.CVode 5 5 0, Event.update 5,
          Event.is_sm_et 5 1, Event.CVode 6 6 0, Event.update 6,
          Event.PrintData 6] } := by
  obtain ⟨h1, h2, h3, h4, -, -, -, -⟩ := exactOnInts_values har
  norm_num [main, oneIntervalControl, failOnceCollab, timeStepping, forLoop, whileLoop,
    subStep, NextPtr, printData, h1, h2, h3, h4]

theorem forLoop_inner_stops {σ : Type} (ar : Arith) (c : Collab σ) (cd : Control_Data)
    (n i : Nat) (s : LoopState σ) (T : ℚ) (hi : (i : Int) < cd.NumSteps)
    (hget : cd.Tout[i + 1]? = some T)
    (hst : (whileLoop ar c cd.ETStep T (n + 1) s).1 ≠ Status.ok) :
    forLoop ar c cd (n + 1) i s = whileLoop ar c cd.ETStep T (n + 1) s := by
  cases hwl : whileLoop ar c cd.ETStep T (n + 1) s with
  | mk st s1 =>
    rw [hwl] at hst
    cases st with
    | ok => exact absurd rfl hst
    | outOfFuel => simp [forLoop, hi, hget, hwl]
    | outOfBounds => simp [forLoop, hi, hget, hwl]

theorem binary64_add_far : binary64.add 10000000000000000 1 = 10000000000000000 := by
  show roundDouble (10000000000000000 + 1) = 10000000000000000
  norm_num
  exact roundDouble_1e16_add_1

/-- In binary64 arithmetic the run from `10^16` towards `10^16 + 4` with ceiling
`1` never ends and never reports: `10^16 + 1` rounds back to `10^16`. -/
theorem farControl_never_ends (fuel : Nat) :
    (timeStepping binary64 idealCollab farControl fuel 0 ()).1 = Status.outOfFuel ∧
    printTimes (timeStepping binary64 idealCollab farControl fuel 0 ()).2.trace = [] := by
  cases fuel with
  | zero =>
    constructor
    · norm_num [timeStepping, forLoop, farControl]
    · norm_num [timeStepping, forLoop, farControl]
      rfl
  | succ n =>
    have hab := whileLoop_absorbed binary64 idealCollab_reachesTarget 1 10000000000000004 (n + 1)
      { t := 10000000000000000, flag := 0, world := (),
        trace := [Event.CVodeMalloc 10000000000000000] }
      binary64_add_far (by norm_num)
    have hfor := forLoop_inner_stops binary64 idealCollab farControl n 0
      { t := 10000000000000000, flag := 0, world := (),
        trace := [Event.CVodeMalloc 10000000000000000] } 10000000000000004
      (by norm_num [farControl]) (by simp [farControl])
      (by
        have h : farControl.ETStep = 1 := rfl
        rw [h, hab.1]
        decide)
    have hts : timeStepping binary64 idealCollab farControl (n + 1) 0 ()
        = whileLoop binary64 idealCollab 1 10000000000000004 (n + 1)
            { t := 10000000000000000, flag := 0, world := (),
              trace := [Event.CVodeMalloc 10000000000000000] } := hfor
    rw [hts]
    refine ⟨hab.1, ?_⟩
    rw [whileLoop_printTimes]
    rfl

/-- The run from `1` to `10^16 + 2` in one sub-step, for an arithmetic that
rounds `10^16 + 3` up to `10^16 + 4` and `10^16 + 1` down to `10^16`. -/
theorem wideControl_run (ar : Arith)
    (hadd : ar.add 1 10000000000000002 = 10000000000000004)
    (hsub : ar.sub 10000000000000002 1 = 10000000000000000) :
    (timeStepping ar idealCollab wideControl 2 0 ()).1 = Status.ok ∧
    (timeStepping ar idealCollab wideControl 2 0 ()).2.trace
      = [Event.CVodeMalloc 1,
         Event.is_sm_et 1 10000000000000000,
         Event.CVode 10000000000000002 10000000000000002 0,
         Event.update 10000000000000002,
         Event.PrintData 10000000000000002] := by
  constructor
  · norm_num [wideControl, timeStepping, forLoop, whileLoop, subStep, NextPtr, printData,
      idealCollab, hadd, hsub]
  · norm_num [wideControl, timeStepping, forLoop, whileLoop, subStep, NextPtr, printData,
      idealCollab, hadd, hsub]

/-! ## The claims -/

/-- C1: for every current time `t`, boundary `Tout[i+1]` with `t < Tout[i+1]` and
ceiling `ETStep`, in exact arithmetic (any linearly ordered field, `ℝ` included),
the `StepSize` computed for `is_sm_et` is at most `ETStep`, and when
`Tout[i+1] - t ≤ ETStep` it is exactly `Tout[i+1] - t`, so that the sub-step ends
on the boundary. Moreover every `is_sm_et` call in the trace of any run of the
loops in exact arithmetic (any collaborators, any iteration budget) carries such
a `StepSize`, hence one that is at most `ETStep`. -/
theorem C1_stepSize_within_ceiling :
    (∀ (α : Type) [LinearOrderedField α] (t ETStep ToutNext : α), t < ToutNext →
      StepSize (fun a b => a + b) (fun a b => a - b) t ETStep ToutNext ≤ ETStep ∧
      (ToutNext - t ≤ ETStep →
        StepSize (fun a b => a + b) (fun a b => a - b) t ETStep ToutNext = ToutNext - t ∧
        t + StepSize (fun a b => a + b) (fun a b => a - b) t ETStep ToutNext = ToutNext)) ∧
    (∀ (σ : Type) (c : Collab σ) (cd : Control_Data) (fuel : Nat) (flag0 : Int) (w : σ)
      (t ss : ℚ), Event.is_sm_et t ss ∈ (timeStepping exactArith c cd fuel flag0 w).2.trace →
        ss ≤ cd.ETStep ∧
        ∃ T ∈ cd.Tout, t < T ∧
          ss = StepSize (fun a b => a + b) (fun a b => a - b) t cd.ETStep T) := by
  refine ⟨fun α _ t ETStep ToutNext _ => ⟨StepSize_le _ _ _, fun hd => ?_⟩, ?_⟩
  · have hnp : NextPtr (fun a b => a + b) t ETStep ToutNext = ToutNext := by
      unfold NextPtr
      rw [if_pos]
      show ToutNext ≤ t + ETStep
      linarith
    unfold StepSize
    rw [hnp]
    exact ⟨rfl, by ring⟩
  · intro σ c cd fuel flag0 w t ss hm
    obtain ⟨T, hT, hlt, rfl⟩ :=
      (timeStepping_reach exactArith c cd fuel flag0 w).is_sm_et_mem t ss hm
    exact ⟨StepSize_le t cd.ETStep T, T, hT, hlt, rfl⟩

/-- C1, at `t = 5`, `Tout[i+1] = 6`, `ETStep = 5`, and at the second `is_sm_et`
call of the scenario run. -/
theorem C1_stepSize_within_ceiling_witness :
    StepSize (fun a b => a + b) (fun a b => a - b) (5 : ℚ) 5 6 ≤ 5 ∧
    (StepSize (fun a b => a + b) (fun a b => a - b) (5 : ℚ) 5 6 = 6 - 5 ∧
      5 + StepSize (fun a b => a + b) (fun a b => a - b) (5 : ℚ) 5 6 = 6) ∧
    (1 : ℚ) ≤ 5 :=
  ⟨(C1_stepSize_within_ceiling.1 ℚ 5 5 6 (by norm_num)).1,
   (C1_stepSize_within_ceiling.1 ℚ 5 5 6 (by norm_num)).2 (by norm_num),
   (C1_stepSize_within_ceiling.2 Unit idealCollab scenarioControl 3 0 () 5 1 (by
      norm_num [scenarioControl, timeStepping, forLoop, whileLoop, subStep, NextPtr,
        printData, idealCollab, exactArith])).1⟩

/-- C2: for every current time `t`, ceiling `ETStep` and boundary `Tout[i+1]` with
`t < Tout[i+1]` (in any linearly ordered field), the target `NextPtr` is
`min (t + ETStep) Tout[i+1]`, hence never beyond the boundary; the same holds
when `t + ETStep` is computed by any other addition, a rounding one included.
Moreover every `CVode` call in the trace of any run of the loops, whatever the
arithmetic, has as target the `NextPtr` computed from the time `t` of the
`is_sm_et` call just before it and a boundary `T` of `Tout` with `t < T`. -/
theorem C2_target_is_min :
    (∀ (α : Type) [LinearOrderedField α] (t ETStep ToutNext : α), t < ToutNext →
      NextPtr (fun a b => a + b) t ETStep ToutNext = min (t + ETStep) ToutNext ∧
      NextPtr (fun a b => a + b) t ETStep ToutNext ≤ ToutNext) ∧
    (∀ (α : Type) [LinearOrder α] (add : α → α → α) (t ETStep ToutNext : α), t < ToutNext →
      NextPtr add t ETStep ToutNext = min (add t ETStep) ToutNext ∧
      NextPtr add t ETStep ToutNext ≤ ToutNext) ∧
    (∀ (ar : Arith) (σ : Type) (c : Collab σ) (cd : Control_Data) (fuel : Nat) (flag0 : Int)
      (w : σ) (j : Nat) (np tret : ℚ) (flag : Int),
      (timeStepping ar c cd fuel flag0 w).2.trace[j]? = some (Event.CVode np tret flag) →
        ∃ k t T, j = k + 1 ∧
          (timeStepping ar c cd fuel flag0 w).2.trace[k]?
            = some (Event.is_sm_et t (ar.sub np t)) ∧
          T ∈ cd.Tout ∧ t < T ∧ np = min (ar.add t cd.ETStep) T ∧ np ≤ T) := by
  refine ⟨fun α _ t ETStep ToutNext _ => ⟨NextPtr_eq_min _ _ _ _, NextPtr_le _ _ _ _⟩,
    fun α _ add t ETStep ToutNext _ => ⟨NextPtr_eq_min _ _ _ _, NextPtr_le _ _ _ _⟩, ?_⟩
  intro ar σ c cd fuel flag0 w j np tret flag hj
  obtain ⟨k, t, T, hk, h1, hT, hlt, hnp, _⟩ :=
    (timeStepping_reach ar c cd fuel flag0 w).CVode_at j np tret flag hj
  refine ⟨k, t, T, hk, h1, hT, hlt, ?_, ?_⟩
  · rw [hnp]; exact NextPtr_eq_min _ _ _ _
  · rw [hnp]; exact NextPtr_le _ _ _ _

/-- C2, at `t = 0` and `t = 5` with `ETStep = 5`, `Tout[i+1] = 6`, and at the
second `CVode` call of the scenario run. -/
theorem C2_target_is_min_witness :
    (NextPtr (fun a b => a + b) (0 : ℚ) 5 6 = min (0 + 5) 6 ∧
      NextPtr (fun a b => a + b) (0 : ℚ) 5 6 ≤ 6) ∧
    (NextPtr (fun a b => a + b) (5 : ℚ) 5 6 = min (5 + 5) 6 ∧
      NextPtr (fun a b => a + b) (5 : ℚ) 5 6 ≤ 6) ∧
    ∃ k t T, 5 = k + 1 ∧
      (timeStepping exactArith idealCollab scenarioControl 3 0 ()).2.trace[k]?
        = some (Event.is_sm_et t (exactArith.sub 6 t)) ∧
      T ∈ scenarioControl.Tout ∧ t < T ∧
      6 = min (exactArith.add t scenarioControl.ETStep) T ∧ 6 ≤ T :=
  ⟨C2_target_is_min.1 ℚ 0 5 6 (by norm_num), C2_target_is_min.1 ℚ 5 5 6 (by norm_num),
   C2_target_is_min.2.2 exactArith Unit idealCollab scenarioControl 3 0 () 5 6 6 0 (by
      norm_num [scenarioControl, timeStepping, forLoop, whileLoop, subStep, NextPtr,
        printData, idealCollab, exactArith])⟩

/-- C3: with `StartTime = 0`, `Tout = [0, 6, 12]`, `NumSteps = 2`, `ETStep = 5` and
a solver that returns exactly the requested target time, the run ends (for every
iteration budget of at least 3) and its sub-steps are, as (start, target)
pairs, `[(0,5), (5,6), (6,11), (11,12)]`, with step sizes `[5, 1, 5, 1]`; the
whole trace (flags apart) shows `PrintData 6` after the first two sub-steps and
`PrintData 12` after the last two, so no target goes past 6 or 12. This holds
for every arithmetic that is exact on integers up to 16, which exact arithmetic
and binary64 arithmetic both are. -/
theorem C3_scenario_subSteps {σ : Type} (ar : Arith) (har : ar.ExactOnInts 16)
    (c : Collab σ) (hc : ReachesTarget c) (flag0 : Int)
    (w : σ) (fuel : Nat) (hfuel : 3 ≤ fuel) :
    (timeStepping ar c scenarioControl fuel flag0 w).1 = Status.ok ∧
    (subStepStarts (timeStepping ar c scenarioControl fuel flag0 w).2.trace).zip
        (subStepTargets (timeStepping ar c scenarioControl fuel flag0 w).2.trace)
      = [(0, 5), (5, 6), (6, 11), (11, 12)] ∧
    stepSizes (timeStepping ar c scenarioControl fuel flag0 w).2.trace = [5, 1, 5, 1] ∧
    printTimes (timeStepping ar c scenarioControl fuel flag0 w).2.trace = [6, 12] ∧
    (timeStepping ar c scenarioControl fuel flag0 w).2.trace.map forgetFlag
      = [Event.CVodeMalloc 0,
         Event.is_sm_et 0 5, Event.CVode 5 5 0, Event.update 5,
         Event.is_sm_et 5 1, Event.CVode 6 6 0, Event.update 6,
         Event.PrintData 6,
         Event.is_sm_et 6 5, Event.CVode 11 11 0, Event.update 11,
         Event.is_sm_et 11 1, Event.CVode 12 12 0, Event.update 12,
         Event.PrintData 12] := by
  unfold ReachesTarget at hc
  obtain ⟨h1, h2, h3, h4, h5, h6, h7, h8⟩ := exactOnInts_values har
  have hok : (timeStepping ar c scenarioControl 3 flag0 w).1 = Status.ok := by
    norm_num [scenarioControl, timeStepping, forLoop, whileLoop, subStep, NextPtr,
      printData, hc, h1, h2, h3, h4, h5, h6, h7, h8]
  rw [timeStepping_mono ar c scenarioControl 3 flag0 w hok fuel hfuel]
  refine ⟨hok, ?_, ?_, ?_, ?_⟩
  · norm_num [scenarioControl, timeStepping, forLoop, whileLoop, subStep, NextPtr,
      printData, hc, subStepStarts, subStepTargets, h1, h2, h3, h4, h5, h6, h7, h8]
    rfl
  · norm_num [scenarioControl, timeStepping, forLoop, whileLoop, subStep, NextPtr,
      printData, hc, stepSizes, h1, h2, h3, h4, h5, h6, h7, h8]
    rfl
  · norm_num [scenarioControl, timeStepping, forLoop, whileLoop, subStep, NextPtr,
      printData, hc, printTimes, h1, h2, h3, h4, h5, h6, h7, h8]
    rfl
  · norm_num [scenarioControl, timeStepping, forLoop, whileLoop, subStep, NextPtr,
      printData, hc, forgetFlag, h1, h2, h3, h4, h5, h6, h7, h8]

/-- C3, for the solver `idealCollab`, binary64 arithmetic and an iteration budget
of 3. -/
theorem C3_scenario_subSteps_witness :
    (timeStepping binary64 idealCollab scenarioControl 3 0 ()).1 = Status.ok ∧
    (subStepStarts (timeStepping binary64 idealCollab scenarioControl 3 0 ()).2.trace).zip
        (subStepTargets (timeStepping binary64 idealCollab scenarioControl 3 0 ()).2.trace)
      = [(0, 5), (5, 6), (6, 11), (11, 12)] ∧
    stepSizes (timeStepping binary64 idealCollab scenarioControl 3 0 ()).2.trace
      = [5, 1, 5, 1] :=
  ⟨(C3_scenario_subSteps binary64 (binary64_exactOnInts 16 (by norm_num)) idealCollab
      idealCollab_reachesTarget 0 () 3 (by decide)).1,
   (C3_scenario_subSteps binary64 (binary64_exactOnInts 16 (by norm_num)) idealCollab
      idealCollab_reachesTarget 0 () 3 (by decide)).2.1,
   (C3_scenario_subSteps binary64 (binary64_exactOnInts 16 (by norm_num)) idealCollab
      idealCollab_reachesTarget 0 () 3 (by decide)).2.2.1⟩

/-- C4, as stated, fails, in three ways.
With `StartTime = 0 = Tout[0]`, boundaries `[0, 6, 12]` and `ETStep = 5`,
`PrintData` receives `[6, 12]`: the configured boundary `Tout[0] = 0` is never
reported.
With `StartTime = 100` and the same boundaries, the run ends and `PrintData`
receives `[100, 100]`, which is not strictly increasing and is not the list of
boundaries, with or without `Tout[0]`.
With binary64 arithmetic, `StartTime = 10^16`, boundaries `[0, 10^16 + 4]` and
`ETStep = 1` (strictly increasing boundaries, `ETStep > 0`,
`StartTime ≤ Tout[1]`, a solver that reaches every target), `t + ETStep` rounds
back to `t`: the run never ends, whatever the budget, and `PrintData` is never
called. -/
theorem C4_counterexample :
    (∀ fuel, 3 ≤ fuel →
      (timeStepping exactArith idealCollab scenarioControl fuel 0 ()).1 = Status.ok ∧
      printTimes (timeStepping exactArith idealCollab scenarioControl fuel 0 ()).2.trace
        = [6, 12] ∧
      printTimes (timeStepping exactArith idealCollab scenarioControl fuel 0 ()).2.trace
        ≠ scenarioControl.Tout) ∧
    (lateStartControl.Tout.Pairwise (· < ·) ∧
      (lateStartControl.Tout.length : Int) = lateStartControl.NumSteps + 1 ∧
      0 < lateStartControl.ETStep ∧
      ReachesTarget idealCollab ∧
      (∀ fuel, 2 ≤ fuel →
        (timeStepping exactArith idealCollab lateStartControl fuel 0 ()).1 = Status.ok ∧
        printTimes (timeStepping exactArith idealCollab lateStartControl fuel 0 ()).2.trace
          = [100, 100]) ∧
      ¬ ([100, 100] : List ℚ).Pairwise (· < ·) ∧
      ([100, 100] : List ℚ) ≠ lateStartControl.Tout.tail ∧
      ([100, 100] : List ℚ) ≠ lateStartControl.Tout) ∧
    (farControl.Tout.Pairwise (· < ·) ∧
      (farControl.Tout.length : Int) = farControl.NumSteps + 1 ∧
      0 < farControl.ETStep ∧
      (∀ T, farControl.Tout[1]? = some T → farControl.StartTime ≤ T) ∧
      binary64.add farControl.StartTime farControl.ETStep = farControl.StartTime ∧
      ∀ fuel,
        (timeStepping binary64 idealCollab farControl fuel 0 ()).1 = Status.outOfFuel ∧
        printTimes (timeStepping binary64 idealCollab farControl fuel 0 ()).2.trace = [] ∧
        printTimes (timeStepping binary64 idealCollab farControl fuel 0 ()).2.trace
          ≠ farControl.Tout.tail) := by
  have h2 : (timeStepping exactArith idealCollab lateStartControl 2 0 ()).1 = Status.ok := by
    norm_num [lateStartControl, timeStepping, forLoop, whileLoop, printData]
  have h3 : (timeStepping exactArith idealCollab scenarioControl 3 0 ()).1 = Status.ok := by
    norm_num [scenarioControl, timeStepping, forLoop, whileLoop, subStep, NextPtr,
      printData, idealCollab, exactArith]
  have hp : printTimes (timeStepping exactArith idealCollab scenarioControl 3 0 ()).2.trace
      = [6, 12] := by
    norm_num [scenarioControl, timeStepping, forLoop, whileLoop, subStep, NextPtr,
      printData, idealCollab, exactArith, printTimes]
    rfl
  refine ⟨fun fuel hfuel => ?_, ⟨?_, ?_, ?_, idealCollab_reachesTarget, fun fuel hfuel => ?_,
    ?_, ?_, ?_⟩, ?_, ?_, ?_, ?_, binary64_add_far, fun fuel => ?_⟩
  · rw [timeStepping_mono exactArith idealCollab scenarioControl 3 0 () h3 fuel hfuel, hp]
    exact ⟨h3, rfl, by norm_num [scenarioControl]⟩
  · norm_num [lateStartControl]
  · norm_num [lateStartControl]
  · norm_num [lateStartControl]
  · rw [timeStepping_mono exactArith idealCollab lateStartControl 2 0 () h2 fuel hfuel]
    refine ⟨h2, ?_⟩
    norm_num [lateStartControl, timeStepping, forLoop, whileLoop, printData, printTimes]
    rfl
  · norm_num
  · norm_num [lateStartControl]
  · norm_num [lateStartControl]
  · norm_num [farControl]
  · norm_num [farControl]
  · norm_num [farControl]
  · intro T hT
    simp [farControl] at hT
    subst hT
    norm_num [farControl]
  · obtain ⟨h1, h2⟩ := farControl_never_ends fuel
    refine ⟨h1, h2, ?_⟩
    rw [h2]
    simp [farControl]

/-- C4, amended: for strictly increasing boundaries `Tout[0..NumSteps]`, a
ceiling `ETStep > 0`, a solver that returns exactly the requested target time,
and a start time `StartTime ≤ Tout[1]`: whatever the arithmetic, whenever the
run ends the times handed to `PrintData` are exactly
`Tout[1], ..., Tout[NumSteps]`, a strictly increasing sequence; and with exact
arithmetic the run does end (for every large enough iteration budget). -/
theorem C4_printTimes_are_boundaries {σ : Type} (ar : Arith) (c : Collab σ)
    (cd : Control_Data) (flag0 : Int) (w : σ) (hc : ReachesTarget c) (hE : 0 < cd.ETStep)
    (hsorted : cd.Tout.Pairwise (· < ·))
    (hlen : (cd.Tout.length : Int) = cd.NumSteps + 1)
    (hstart : ∀ T, cd.Tout[1]? = some T → cd.StartTime ≤ T) :
    (∀ fuel, (timeStepping ar c cd fuel flag0 w).1 = Status.ok →
      printTimes (timeStepping ar c cd fuel flag0 w).2.trace = cd.Tout.tail ∧
      (printTimes (timeStepping ar c cd fuel flag0 w).2.trace).Pairwise (· < ·)) ∧
    (∃ K, ∀ fuel, K ≤ fuel →
      (timeStepping exactArith c cd fuel flag0 w).1 = Status.ok ∧
      printTimes (timeStepping exactArith c cd fuel flag0 w).2.trace = cd.Tout.tail ∧
      (printTimes (timeStepping exactArith c cd fuel flag0 w).2.trace).Pairwise (· < ·)) := by
  have hended : ∀ (ar1 : Arith) (fuel : Nat),
      (timeStepping ar1 c cd fuel flag0 w).1 = Status.ok →
      printTimes (timeStepping ar1 c cd fuel flag0 w).2.trace = cd.Tout.tail ∧
      (printTimes (timeStepping ar1 c cd fuel flag0 w).2.trace).Pairwise (· < ·) := by
    intro ar1 fuel hok
    have h := forLoop_ended ar1 hc hsorted hlen fuel 0
      { t := cd.StartTime, flag := flag0, world := w,
        trace := [Event.CVodeMalloc cd.StartTime] } hstart hok
    have h3 : printTimes (timeStepping ar1 c cd fuel flag0 w).2.trace = cd.Tout.tail := by
      unfold timeStepping
      rw [h]
      simp [printTimes]
    exact ⟨h3, by rw [h3]; exact hsorted.tail⟩
  refine ⟨hended ar, ?_⟩
  by_cases hn : 0 ≤ cd.NumSteps
  · obtain ⟨K, hK⟩ := forLoop_ideal hc hE hsorted hlen cd.NumSteps.toNat 0
      { t := cd.StartTime, flag := flag0, world := w,
        trace := [Event.CVodeMalloc cd.StartTime] }
      (by simp [Int.toNat_of_nonneg hn]) hstart
    exact ⟨K, fun fuel hfuel => ⟨hK fuel hfuel, hended exactArith fuel (hK fuel hfuel)⟩⟩
  · refine ⟨0, fun fuel _ => ?_⟩
    have hok : (timeStepping exactArith c cd fuel flag0 w).1 = Status.ok := by
      unfold timeStepping
      rw [forLoop_done exactArith c cd fuel 0 _ (by push_cast; omega)]
    exact ⟨hok, hended exactArith fuel hok⟩

/-- C4 amended, for the scenario `Tout = [0, 6, 12]`, `StartTime = 0`, with
binary64 arithmetic in the first part. -/
theorem C4_printTimes_are_boundaries_witness :
    (∀ fuel, (timeStepping binary64 idealCollab scenarioControl fuel 0 ()).1 = Status.ok →
      printTimes (timeStepping binary64 idealCollab scenarioControl fuel 0 ()).2.trace
        = scenarioControl.Tout.tail ∧
      (printTimes (timeStepping binary64 idealCollab scenarioControl fuel 0 ()).2.trace).Pairwise
        (· < ·)) ∧
    (∃ K, ∀ fuel, K ≤ fuel →
      (timeStepping exactArith idealCollab scenarioControl fuel 0 ()).1 = Status.ok ∧
      printTimes (timeStepping exactArith idealCollab scenarioControl fuel 0 ()).2.trace
        = scenarioControl.Tout.tail ∧
      (printTimes (timeStepping exactArith idealCollab scenarioControl fuel 0 ()).2.trace).Pairwise
        (· < ·)) :=
  C4_printTimes_are_boundaries binary64 idealCollab scenarioControl 0 ()
    idealCollab_reachesTarget
    (by norm_num [scenarioControl]) (by norm_num [scenarioControl])
    (by norm_num [scenarioControl]) (by
      intro T hT
      simp [scenarioControl] at hT
      subst hT
      norm_num [scenarioControl])

/-- C5: the code does not stop on a solver failure. With one reporting interval
`[0, 6]`, `ETStep = 5` and a solver whose first call returns `CV_CONV_FAILURE`
(`-4`) without advancing `t`, the flag is dropped: `update` is called, the same
sub-step is tried again, two more `is_sm_et` and `CVode` calls and the
`PrintData` call follow, and `main` returns `0`; in exact arithmetic and in
binary64 arithmetic alike. -/
theorem C5_failure_flag_ignored :
    main exactArith failOnceCollab oneIntervalControl 3 0 =
      { status := Status.ok
        returned := some 0
        trace := [Event.CVodeMalloc 0,
          Event.is_sm_et 0 5, Event.CVode 5 0 (-4), Event.update 0,
          Event.is_sm_et 0 5, Event.CVode 5 5 0, Event.update 5,
          Event.is_sm_et 5 1, Event.CVode 6 6 0, Event.update 6,
          Event.PrintData 6] } ∧
    main binary64 failOnceCollab oneIntervalControl 3 0
      = main exactArith failOnceCollab oneIntervalControl 3 0 := by
  have h1 := main_failOnce (exactArith_exactOnInts 16)
  have h2 := main_failOnce (binary64_exactOnInts 16 (by norm_num))
  exact ⟨h1, by rw [h1, h2]⟩

/-- C6: the code leaves the problem size unset outside mode 2. For a model with
`UnsatMode = 1`, one element and one river segment, `N` is never assigned, so
`N_VNew_Serial(N)` on line 183 reads an indeterminate `N` instead of
`3 * NumEle + 2 * NumRiv = 5`, and `DummyY` is not allocated; the same model
with `UnsatMode = 2` gets `N = 5` and a `DummyY` of 5 entries of 8 bytes. -/
theorem C6_problemSize_unset_outside_mode2 :
    (problemSize 8 1 1 1).N = none ∧
    CV_Y_length 8 1 1 1 = none ∧
    CV_Y_length 8 1 1 1 ≠ some (3 * 1 + 2 * 1) ∧
    (problemSize 8 1 1 1).DummyY_bytes = none ∧
    CV_Y_length 8 2 1 1 = some (3 * 1 + 2 * 1) ∧
    (problemSize 8 2 1 1).DummyY_bytes = some (8 * 5) := by
  decide

/-- In mode 2, for counts that are not negative and a size that fits in an
`int`, `N` is `3 * NumEle + 2 * NumRiv` and `DummyY` gets that many entries. -/
theorem problemSize_mode2 (sizeof_realtype : Nat) (UnsatMode NumEle NumRiv : Int)
    (hmode : UnsatMode = 2) (hEle : 0 ≤ NumEle) (hRiv : 0 ≤ NumRiv)
    (hfit : 3 * NumEle + 2 * NumRiv < 2 ^ 31)
    (hsz : 0 < sizeof_realtype) (hsz1 : sizeof_realtype ≤ 2 ^ 32) :
    (problemSize sizeof_realtype UnsatMode NumEle NumRiv).N = some (3 * NumEle + 2 * NumRiv) ∧
    ∃ bytes, (problemSize sizeof_realtype UnsatMode NumEle NumRiv).DummyY_bytes = some bytes ∧
      (entries sizeof_realtype bytes : Int) = 3 * NumEle + 2 * NumRiv := by
  have hw : wrapInt (wrapInt (3 * NumEle) + wrapInt (2 * NumRiv)) = 3 * NumEle + 2 * NumRiv := by
    unfold wrapInt
    omega
  have hn : ((3 * NumEle + 2 * NumRiv) % 2 ^ 64).toNat = (3 * NumEle + 2 * NumRiv).toNat := by
    congr 1
    omega
  have hlt : (3 * NumEle + 2 * NumRiv).toNat * sizeof_realtype < 2 ^ 64 := by
    have h1 : (3 * NumEle + 2 * NumRiv).toNat ≤ 2 ^ 31 := by omega
    calc (3 * NumEle + 2 * NumRiv).toNat * sizeof_realtype
        ≤ 2 ^ 31 * 2 ^ 32 := Nat.mul_le_mul h1 hsz1
      _ < 2 ^ 64 := by norm_num
  simp only [problemSize, hmode, if_true, hw, hn, Nat.mod_eq_of_lt hlt, true_and]
  refine ⟨_, rfl, ?_⟩
  unfold entries
  rw [Nat.mul_div_cancel _ hsz]
  omega

/-- C7, as stated, fails on the interval: with binary64 arithmetic, a run from
`t = 1` to the boundary `10^16 + 2` in one sub-step calls
`is_sm_et(1, 10^16)` and then `CVode` with target `10^16 + 2`, because the
difference `10^16 + 1` is rounded to `10^16`. The updater's interval ends at
`1 + 10^16`, not at the solver's target `10^16 + 2`; computed in binary64
`1 + 10^16` is `10^16`, which is not the target either. -/
theorem C7_counterexample :
    (timeStepping binary64 idealCollab wideControl 2 0 ()).1 = Status.ok ∧
    (timeStepping binary64 idealCollab wideControl 2 0 ()).2.trace
      = [Event.CVodeMalloc 1,
         Event.is_sm_et 1 10000000000000000,
         Event.CVode 10000000000000002 10000000000000002 0,
         Event.update 10000000000000002,
         Event.PrintData 10000000000000002] ∧
    (1 : ℚ) + 10000000000000000 ≠ 10000000000000002 ∧
    binary64.add 1 10000000000000000 = 10000000000000000 ∧
    binary64.add 1 10000000000000000 ≠ 10000000000000002 := by
  have hadd : binary64.add 1 10000000000000002 = 10000000000000004 := by
    show roundDouble (1 + 10000000000000002) = 10000000000000004
    norm_num
    exact roundDouble_1e16_add_3
  have hsub : binary64.sub 10000000000000002 1 = 10000000000000000 := by
    show roundDouble (10000000000000002 - 1) = 10000000000000000
    norm_num
    exact roundDouble_1e16_add_1
  have hadd1 : binary64.add 1 10000000000000000 = 10000000000000000 := by
    show roundDouble (1 + 10000000000000000) = 10000000000000000
    norm_num
    exact roundDouble_1e16_add_1
  have hrun := wideControl_run binary64 hadd hsub
  exact ⟨hrun.1, hrun.2, by norm_num, hadd1, by rw [hadd1]; norm_num⟩

/-- C7, amended: whatever the arithmetic, each sub-step makes exactly the calls
`is_sm_et(t, StepSize)`, `CVode(NextPtr)`, `update`, in this order, where
`StepSize` is the computed difference `NextPtr - t`, and leaves as current time
the time the solver reported. In the trace of any run of the loops: an
`is_sm_et` call is followed at once by the `CVode` call of whose target its
`StepSize` is the computed distance; a `CVode` call comes right after that
`is_sm_et` call and right before `update` at the reported time; and the call
after that `update` (the next `is_sm_et`, or `PrintData`) is made at the reported
time. When the subtraction is exact, `t + StepSize` is the target `NextPtr`: the
updater's interval `[t, t + StepSize]` is the interval `[t, NextPtr]` the solver
is asked to cover. -/
theorem C7_subStep_call_order :
    (∀ (ar : Arith) (σ : Type) (c : Collab σ) (ETStep ToutNext : ℚ) (s : LoopState σ),
      (subStep ar c ETStep ToutNext s).trace
        = s.trace ++ [Event.is_sm_et s.t (StepSize ar.add ar.sub s.t ETStep ToutNext),
            Event.CVode (NextPtr ar.add s.t ETStep ToutNext) (subStep ar c ETStep ToutNext s).t
              (subStep ar c ETStep ToutNext s).flag,
            Event.update (subStep ar c ETStep ToutNext s).t] ∧
      StepSize ar.add ar.sub s.t ETStep ToutNext
        = ar.sub (NextPtr ar.add s.t ETStep ToutNext) s.t ∧
      (subStep ar c ETStep ToutNext s).t
        = (c.CVode (NextPtr ar.add s.t ETStep ToutNext) s.t
            (c.is_sm_et s.t (StepSize ar.add ar.sub s.t ETStep ToutNext) s.world)).2.1) ∧
    (∀ (ar : Arith) (σ : Type) (c : Collab σ) (cd : Control_Data) (fuel : Nat) (flag0 : Int)
      (w : σ) (j : Nat),
      (∀ t ss, (timeStepping ar c cd fuel flag0 w).2.trace[j]? = some (Event.is_sm_et t ss) →
        ∃ np tret flag, (timeStepping ar c cd fuel flag0 w).2.trace[j + 1]?
          = some (Event.CVode np tret flag) ∧ ss = ar.sub np t) ∧
      (∀ np tret flag,
        (timeStepping ar c cd fuel flag0 w).2.trace[j]? = some (Event.CVode np tret flag) →
        ∃ k t, j = k + 1 ∧
          (timeStepping ar c cd fuel flag0 w).2.trace[k]?
            = some (Event.is_sm_et t (ar.sub np t)) ∧
          (timeStepping ar c cd fuel flag0 w).2.trace[j + 1]? = some (Event.update tret)) ∧
      (∀ tret e, (timeStepping ar c cd fuel flag0 w).2.trace[j]? = some (Event.update tret) →
        (timeStepping ar c cd fuel flag0 w).2.trace[j + 1]? = some e →
        (∃ ss, e = Event.is_sm_et tret ss) ∨ e = Event.PrintData tret)) ∧
    (∀ (σ : Type) (c : Collab σ) (cd : Control_Data) (fuel : Nat) (flag0 : Int) (w : σ)
      (j : Nat),
      (∀ t ss,
        (timeStepping exactArith c cd fuel flag0 w).2.trace[j]? = some (Event.is_sm_et t ss) →
        ∃ tret flag, (timeStepping exactArith c cd fuel flag0 w).2.trace[j + 1]?
          = some (Event.CVode (t + ss) tret flag)) ∧
      (∀ np tret flag,
        (timeStepping exactArith c cd fuel flag0 w).2.trace[j]?
          = some (Event.CVode np tret flag) →
        ∃ k t ss, j = k + 1 ∧
          (timeStepping exactArith c cd fuel flag0 w).2.trace[k]?
            = some (Event.is_sm_et t ss) ∧
          t + ss = np)) := by
  refine ⟨fun ar σ c ETStep ToutNext s => ⟨rfl, rfl, rfl⟩, ?_, ?_⟩
  · intro ar σ c cd fuel flag0 w j
    have hr := timeStepping_reach ar c cd fuel flag0 w
    refine ⟨fun t ss h => hr.is_sm_et_at j t ss h, fun np tret flag h => ?_,
      fun tret e h1 h2 => hr.after_update j tret e h1 h2⟩
    obtain ⟨k, t, T, hk, h1, _, _, _, h5⟩ := hr.CVode_at j np tret flag h
    exact ⟨k, t, hk, h1, h5⟩
  · intro σ c cd fuel flag0 w j
    have hr := timeStepping_reach exactArith c cd fuel flag0 w
    refine ⟨fun t ss h => ?_, fun np tret flag h => ?_⟩
    · obtain ⟨np, tret, flag, h1, h2⟩ := hr.is_sm_et_at j t ss h
      have he : t + ss = np := by
        rw [h2]
        show t + (np - t) = np
        ring
      exact ⟨tret, flag, by rw [he]; exact h1⟩
    · obtain ⟨k, t, T, hk, h1, _, _, _, _⟩ := hr.CVode_at j np tret flag h
      refine ⟨k, t, exactArith.sub np t, hk, h1, ?_⟩
      show t + (np - t) = np
      ring

/-- C7 amended, in the scenario run with binary64 arithmetic: the `CVode` call at
position 5 of the trace. -/
theorem C7_subStep_call_order_witness :
    ∃ k t, 5 = k + 1 ∧
      (timeStepping binary64 idealCollab scenarioControl 3 0 ()).2.trace[k]?
        = some (Event.is_sm_et t (binary64.sub 6 t)) ∧
      (timeStepping binary64 idealCollab scenarioControl 3 0 ()).2.trace[5 + 1]?
        = some (Event.update 6) :=
  (C7_subStep_call_order.2.1 binary64 Unit idealCollab scenarioControl 3 0 () 5).2.1 6 6 0 (by
    obtain ⟨h1, h2, h3, h4, h5, h6, h7, h8⟩ :=
      exactOnInts_values (binary64_exactOnInts 16 (by norm_num))
    norm_num [scenarioControl, timeStepping, forLoop, whileLoop, subStep, NextPtr,
      printData, idealCollab, h1, h2, h3, h4, h5, h6, h7, h8])

/-- C8: the loops are entered with `t = StartTime`, right after the call
`CVodeMalloc(cvode_mem, f, StartTime, ...)`, which is the first call of the
trace; and in any run (any arithmetic, any collaborators, any iteration budget)
the first `is_sm_et` call, if there is one, receives the time `StartTime`. -/
theorem C8_loop_starts_at_StartTime {σ : Type} (ar : Arith) (c : Collab σ)
    (cd : Control_Data) (fuel : Nat) (flag0 : Int) (w : σ) :
    timeStepping ar c cd fuel flag0 w
      = forLoop ar c cd fuel 0
          { t := cd.StartTime, flag := flag0, world := w,
            trace := [Event.CVodeMalloc cd.StartTime] } ∧
    (timeStepping ar c cd fuel flag0 w).2.trace.head?
      = some (Event.CVodeMalloc cd.StartTime) ∧
    ∀ t, (subStepStarts (timeStepping ar c cd fuel flag0 w).2.trace).head? = some t →
      t = cd.StartTime :=
  ⟨rfl, (timeStepping_reach ar c cd fuel flag0 w).head,
    (timeStepping_reach ar c cd fuel flag0 w).first_is_sm_et.2⟩

/-- C8, in the scenario run, whose first `is_sm_et` call is at time `0`. -/
theorem C8_loop_starts_at_StartTime_witness : (0 : ℚ) = scenarioControl.StartTime :=
  (C8_loop_starts_at_StartTime exactArith idealCollab scenarioControl 3 0 ()).2.2 0 (by
    norm_num [scenarioControl, timeStepping, forLoop, whileLoop, subStep, NextPtr,
      printData, idealCollab, exactArith, subStepStarts])

/-- C9, as stated, fails, in two ways.
Entered at `t0 = 7` with boundary `Tout[i+1] = 6` and `ETStep = 5` (exact
arithmetic), the inner loop ends at once, after `max(0, ⌈(6 - 7) / 5⌉) = 0`
sub-steps; the step sizes of those (no) sub-steps sum to `0`, not to
`Tout[i+1] - t0 = -1`.
Entered at `t0 = 10^16` with boundary `10^16 + 4` and `ETStep = 1 > 0` in
binary64 arithmetic, with a solver that reaches every target, the loop does not
end after `max(0, ⌈4 / 1⌉) = 4` sub-steps: `t + ETStep` rounds back to `t`, and
the loop never ends, whatever the budget. -/
theorem C9_counterexample :
    (ReachesTarget idealCollab ∧ (0 : ℚ) < 5 ∧
      (max 0 ⌈((6 : ℚ) - (entryState 7).t) / 5⌉).toNat = 0 ∧
      (∀ fuel, whileLoop exactArith idealCollab 5 6 fuel (entryState 7)
        = (Status.ok, entryState 7)) ∧
      stepSizes (entryState 7).trace = [] ∧
      (stepSizes (entryState 7).trace).sum ≠ 6 - (entryState 7).t) ∧
    ((0 : ℚ) < 1 ∧
      (max 0 ⌈((10000000000000004 : ℚ) - (entryState 10000000000000000).t) / 1⌉).toNat = 4 ∧
      ∀ fuel,
        (whileLoop binary64 idealCollab 1 10000000000000004 fuel
          (entryState 10000000000000000)).1 = Status.outOfFuel ∧
        (whileLoop binary64 idealCollab 1 10000000000000004 fuel
          (entryState 10000000000000000)).2.t = 10000000000000000) := by
  refine ⟨⟨idealCollab_reachesTarget, by norm_num, ?_, fun fuel => ?_, rfl, ?_⟩,
    by norm_num, ?_, fun fuel => ?_⟩
  · have h : ⌈((6 : ℚ) - (entryState 7).t) / 5⌉ = 0 := by
      rw [Int.ceil_eq_iff]
      norm_num [entryState]
    rw [h]
    rfl
  · exact whileLoop_done exactArith idealCollab 5 6 fuel (entryState 7)
      (by norm_num [entryState])
  · norm_num [entryState, stepSizes]
  · have h : ⌈((10000000000000004 : ℚ) - (entryState 10000000000000000).t) / 1⌉ = 4 := by
      rw [Int.ceil_eq_iff]
      norm_num [entryState]
    rw [h]
    rfl
  · exact whileLoop_absorbed binary64 idealCollab_reachesTarget 1 10000000000000004 fuel
      (entryState 10000000000000000) binary64_add_far (by norm_num [entryState])

/-- C9, amended: in exact arithmetic, with `ETStep > 0` and a solver that returns
exactly the requested target time, the inner loop entered at time `t0` ends
after exactly `k = max(0, ⌈(Tout[i+1] - t0) / ETStep⌉)` sub-steps (it ends within
an iteration budget exactly when the budget is at least `k`, and runs out of
budget otherwise), it ends with `t = max t0 Tout[i+1]`, which is `Tout[i+1]` when
`t0 < Tout[i+1]`, and the `k` step sizes of its sub-steps sum to
`max 0 (Tout[i+1] - t0)`, which is `Tout[i+1] - t0` when `t0 ≤ Tout[i+1]`. With
`ETStep ≤ 0` and `t0 < Tout[i+1]` the loop never ends, whatever the budget, and
the time never rises above `t0`. And whatever the arithmetic and the ceiling,
when the loop entered with `t0 ≤ Tout[i+1]` ends, it ends with `t = Tout[i+1]`. -/
theorem C9_whileLoop_subStep_count {σ : Type} (c : Collab σ) (hc : ReachesTarget c)
    (ETStep ToutNext : ℚ) (s : LoopState σ) :
    (0 < ETStep →
      (∀ fuel, (whileLoop exactArith c ETStep ToutNext fuel s).1 = Status.ok ↔
        (max 0 ⌈(ToutNext - s.t) / ETStep⌉).toNat ≤ fuel) ∧
      (∀ fuel, fuel < (max 0 ⌈(ToutNext - s.t) / ETStep⌉).toNat →
        (whileLoop exactArith c ETStep ToutNext fuel s).1 = Status.outOfFuel) ∧
      (∀ fuel, (max 0 ⌈(ToutNext - s.t) / ETStep⌉).toNat ≤ fuel →
        (whileLoop exactArith c ETStep ToutNext fuel s).2.t = max s.t ToutNext ∧
        (s.t < ToutNext → (whileLoop exactArith c ETStep ToutNext fuel s).2.t = ToutNext) ∧
        ∃ L : List ℚ,
          stepSizes (whileLoop exactArith c ETStep ToutNext fuel s).2.trace
            = stepSizes s.trace ++ L ∧
          L.length = (max 0 ⌈(ToutNext - s.t) / ETStep⌉).toNat ∧
          L.sum = max 0 (ToutNext - s.t) ∧
          (s.t ≤ ToutNext → L.sum = ToutNext - s.t))) ∧
    (ETStep ≤ 0 → s.t < ToutNext →
      ∀ fuel, (whileLoop exactArith c ETStep ToutNext fuel s).1 = Status.outOfFuel ∧
        (whileLoop exactArith c ETStep ToutNext fuel s).2.t ≤ s.t ∧
        (whileLoop exactArith c ETStep ToutNext fuel s).2.t < ToutNext) ∧
    (∀ (ar : Arith) (fuel : Nat), s.t ≤ ToutNext →
      (whileLoop ar c ETStep ToutNext fuel s).1 = Status.ok →
      (whileLoop ar c ETStep ToutNext fuel s).2.t = ToutNext) := by
  have hk : (max 0 ⌈(ToutNext - s.t) / ETStep⌉).toNat = ⌈(ToutNext - s.t) / ETStep⌉₊ := by
    have h : ⌈(ToutNext - s.t) / ETStep⌉.toNat = ⌈(ToutNext - s.t) / ETStep⌉₊ := rfl
    omega
  rw [hk]
  refine ⟨fun hE => ⟨fun fuel => ⟨fun hok => ?_, fun hle => ?_⟩, fun fuel hlt => ?_,
    fun fuel hle => ?_⟩, fun hE ht fuel => ?_,
    fun ar fuel hle hok => whileLoop_exit ar hc ETStep ToutNext fuel s hle hok⟩
  · by_contra hlt
    have := (whileLoop_ideal hc hE ToutNext fuel s).1 (not_le.mp hlt)
    rw [this] at hok
    cases hok
  · exact ((whileLoop_ideal hc hE ToutNext fuel s).2 hle).1
  · exact (whileLoop_ideal hc hE ToutNext fuel s).1 hlt
  · obtain ⟨_, h2, _, L, h4, h5, h6⟩ := (whileLoop_ideal hc hE ToutNext fuel s).2 hle
    refine ⟨h2, fun ht => by rw [h2, max_eq_right ht.le], L, h4, h5, h6, fun ht => ?_⟩
    rw [h6, max_eq_right (by linarith)]
  · obtain ⟨h1, h2⟩ := whileLoop_stuck hc hE ToutNext fuel s ht
    exact ⟨h1, h2, lt_of_le_of_lt h2 ht⟩

/-- C9 amended, for the solver `idealCollab`: entered at `t0 = 0` with boundary
`6`, once with `ETStep = 5`, once with `ETStep = 0`, and once with `ETStep = 5` in
binary64 arithmetic. -/
theorem C9_whileLoop_subStep_count_witness :
    ((∀ fuel, (whileLoop exactArith idealCollab 5 6 fuel (entryState 0)).1 = Status.ok ↔
        (max 0 ⌈((6 : ℚ) - (entryState 0).t) / 5⌉).toNat ≤ fuel) ∧
      (∀ fuel, fuel < (max 0 ⌈((6 : ℚ) - (entryState 0).t) / 5⌉).toNat →
        (whileLoop exactArith idealCollab 5 6 fuel (entryState 0)).1 = Status.outOfFuel) ∧
      (∀ fuel, (max 0 ⌈((6 : ℚ) - (entryState 0).t) / 5⌉).toNat ≤ fuel →
        (whileLoop exactArith idealCollab 5 6 fuel (entryState 0)).2.t
          = max (entryState 0).t 6 ∧
        ((entryState 0).t < 6 →
          (whileLoop exactArith idealCollab 5 6 fuel (entryState 0)).2.t = 6) ∧
        ∃ L : List ℚ,
          stepSizes (whileLoop exactArith idealCollab 5 6 fuel (entryState 0)).2.trace
            = stepSizes (entryState 0).trace ++ L ∧
          L.length = (max 0 ⌈((6 : ℚ) - (entryState 0).t) / 5⌉).toNat ∧
          L.sum = max 0 (6 - (entryState 0).t) ∧
          ((entryState 0).t ≤ 6 → L.sum = 6 - (entryState 0).t))) ∧
    (∀ fuel, (whileLoop exactArith idealCollab 0 6 fuel (entryState 0)).1 = Status.outOfFuel ∧
      (whileLoop exactArith idealCollab 0 6 fuel (entryState 0)).2.t ≤ (entryState 0).t ∧
      (whileLoop exactArith idealCollab 0 6 fuel (entryState 0)).2.t < 6) ∧
    (∀ fuel, (whileLoop binary64 idealCollab 5 6 fuel (entryState 0)).1 = Status.ok →
      (whileLoop binary64 idealCollab 5 6 fuel (entryState 0)).2.t = 6) :=
  ⟨(C9_whileLoop_subStep_count idealCollab idealCollab_reachesTarget 5 6 (entryState 0)).1
      (by norm_num),
   (C9_whileLoop_subStep_count idealCollab idealCollab_reachesTarget 0 6 (entryState 0)).2.1
      le_rfl (by norm_num [entryState]),
   fun fuel =>
    (C9_whileLoop_subStep_count idealCollab idealCollab_reachesTarget 5 6 (entryState 0)).2.2
      binary64 fuel (by norm_num [entryState])⟩

/-- C10: the code allocates every name buffer too small. For every project name
`argv[1]`, the buffer `filename` has `strlen(argv[1])` bytes while `strcpy` writes
`strlen(argv[1]) + 1`; and every `ofn[k]` has as many bytes as the name and its
extension have characters (one fewer for `.infil`), with no room for the
terminating NUL. For the project name `"a"`: `filename` has 1 byte for 2
written, `ofn[0]` has 4 bytes for 5 written, `ofn[22]` has 6 bytes for 8
written. -/
theorem C10_name_buffers_too_small :
    (∀ argv1 : String,
      filenameCapacity argv1 < filenameWritten argv1 ∧
      ∀ a ∈ ofnAllocs, ofnCapacity argv1 a < ofnWritten argv1 a) ∧
    filenameCapacity "a" = 1 ∧ filenameWritten "a" = 2 ∧
    ofnCapacity "a" (0, 3, ".GW") = 4 ∧ ofnWritten "a" (0, 3, ".GW") = 5 ∧
    ofnCapacity "a" (22, 5, ".infil") = 6 ∧ ofnWritten "a" (22, 5, ".infil") = 8 := by
  have hext : ∀ a ∈ ofnAllocs, a.2.1 < strlen a.2.2 + 1 := by decide
  refine ⟨fun argv1 => ⟨?_, fun a ha => ?_⟩, by decide, by decide, by decide, by decide,
    by decide, by decide⟩
  · unfold filenameCapacity filenameWritten
    omega
  · have := hext a ha
    unfold ofnCapacity ofnWritten
    omega

end PIHM
